import Mathlib

/-! # blinkt_go, package `sysfs`: a verification development

Shallow embedding of `sysfs/blinkt.go` and of the operations of
`sysfs/gpio/gpio.go` it calls: the two line writes and `Cleanup`.

* Go's `int` is modelled by `Int`; the one arithmetic operation that can leave
  the machine range, `val << 1` in `writeByte`, wraps explicitly (`wrapInt`).
* Go's `float64` is modelled by `F64` (sign, integer significand, binary
  exponent, plus NaN and the infinities) with correctly rounded multiplication.
* The receiver `bl *Blinkt` and the GPIO value files live in a `World`; every
  function that mutates the strip or writes a line is an `Op`, a state
  transformer that may stop with a `Fault` (`log.Fatalf`, a run-time panic).
* `Close` also releases the lines: the pin table of `gpio.go` and the pins the
  kernel has exported live in a `gpio.Driver`, and a `SysOp` acts on the strip
  and the driver together.
-/

namespace sysfs

/-! ## Go `int` -/

/-- Two's-complement wrap of a mathematical integer into the range of a
64-bit Go `int`. -/
def wrapInt (x : Int) : Int := (x + 2 ^ 63) % 2 ^ 64 - 2 ^ 63

/-! ## Data model (`blinkt.go`, lines 202-210) -/

/-- Go: `type Pixel struct { R, G, B, Brightness int }`. -/
structure Pixel where
  R : Int
  G : Int
  B : Int
  Brightness : Int
deriving DecidableEq

/-- Go: `type Blinkt struct { pixels [8]Pixel; previousPixels [8]Pixel }`.
An array `[8]Pixel` is a total map from the indices `0..7`. -/
structure Blinkt where
  pixels : Fin 8 → Pixel
  previousPixels : Fin 8 → Pixel

instance : DecidableEq Blinkt := fun a b =>
  decidable_of_iff (a.pixels = b.pixels ∧ a.previousPixels = b.previousPixels)
    (by cases a; cases b; simp)

/-- The zero value of `[8]Pixel`: every field of every element is `0`. -/
def zeroPixels : Fin 8 → Pixel := fun _ => ⟨0, 0, 0, 0⟩

namespace gpio

/-- One call of `valueFd.Write([]byte(val))` on the value file of `pin`. -/
structure LineWrite where
  pin : String
  val : String
deriving DecidableEq

end gpio

/-! ## Go `float64` -/

/-- An IEEE-754 binary64 datum: NaN, an infinity, or the finite number
`± m * 2 ^ e` (both zeros are `m = 0`). -/
inductive F64 where
  | nan
  | inf (neg : Bool)
  | fin (neg : Bool) (m : Nat) (e : Int)
deriving DecidableEq

namespace F64

/-- The finite data that are binary64 numbers: 53 bits of significand and an
exponent between that of the least subnormal and that of the greatest number. -/
def Valid : F64 → Prop
  | fin _ m e => m < 2 ^ 53 ∧ -1074 ≤ e ∧ e ≤ 971
  | _ => True

instance : DecidablePred Valid := fun x => by
  cases x <;> unfold Valid <;> infer_instance

/-- The integer `± m * 2 ^ (e - k)`: a finite value in units of `2 ^ k`,
for `k ≤ e`. -/
def scaled (neg : Bool) (m : Nat) (e k : Int) : Int :=
  (if neg then -1 else 1) * ((m : Int) * 2 ^ (e - k).toNat)

/-- Go: `x <= y` on `float64`; false when an operand is NaN. -/
def le : F64 → F64 → Bool
  | nan, _ => false
  | _, nan => false
  | inf true, _ => true
  | _, inf false => true
  | inf false, _ => false
  | _, inf true => false
  | fin s m e, fin t n k => decide (scaled s m e (min e k) ≤ scaled t n k (min e k))

/-- Go: `x >= y` on `float64`. -/
def ge (x y : F64) : Bool := le y x

/-- Halves `n` until it is `0` and counts the steps, `fuel` steps at most. -/
def bitLengthAux : Nat → Nat → Nat
  | 0, _ => 0
  | fuel + 1, n => if n = 0 then 0 else bitLengthAux fuel (n / 2) + 1

/-- The number of bits of a natural number: `0` for `0`, else the position
of the leading one, counted from 1. -/
def bitLength (n : Nat) : Nat := bitLengthAux n n

/-- Rounds the exact product `± M * 2 ^ E` to binary64: to nearest, ties to
the even significand, overflow to an infinity. `drop` is the number of low
bits that do not fit. -/
def round (neg : Bool) (M : Nat) (E : Int) : F64 :=
  let drop : Nat := max (bitLength M - 53) (-1074 - E).toNat
  let q := M / 2 ^ drop
  let r := M % 2 ^ drop
  let up : Bool := decide (2 ^ drop < 2 * r) || (decide (2 * r = 2 ^ drop) && decide (q % 2 = 1))
  let m1 := if up then q + 1 else q
  let e1 := E + drop
  if 1024 < (bitLength m1 : Int) + e1 then inf neg
  else if 971 < e1 then fin neg (m1 * 2 ^ (e1 - 971).toNat) 971
  else if m1 = 2 ^ 53 then fin neg (2 ^ 52) (e1 + 1)
  else fin neg m1 e1

/-- Go: `x * y` on `float64`. -/
def mul : F64 → F64 → F64
  | nan, _ => nan
  | _, nan => nan
  | inf s, inf t => inf (xor s t)
  | inf s, fin t n _ => if n = 0 then nan else inf (xor s t)
  | fin s m _, inf t => if m = 0 then nan else inf (xor s t)
  | fin s m e, fin t n k => round (xor s t) (m * n) (e + k)

/-- Go: the conversion `int(x)` of a `float64`: the fraction is discarded
(truncation towards zero). `none` where the language leaves the result to
the implementation (NaN, an infinity, a value outside the range of `int`). -/
def toInt : F64 → Option Int
  | fin neg m e =>
    let a : Int := if 0 ≤ e then (m : Int) * 2 ^ e.toNat else (m : Int) / 2 ^ (-e).toNat
    let v : Int := if neg then -a else a
    if -2 ^ 63 ≤ v ∧ v < 2 ^ 63 then some v else none
  | _ => none

/-- The rational number a finite datum stands for (`0` for the others). -/
def toRat : F64 → ℚ
  | fin neg m e => (if neg then -1 else 1) * ((m : ℚ) * 2 ^ e)
  | _ => 0

/-- The `float64` of a natural number below `2 ^ 53`, such as the constants
`0.0`, `1.0` and `31.0`. -/
def ofNat (n : Nat) : F64 := fin false n 0

/-- A brightness `v` with `0.0 <= v <= 1.0`: a number (neither NaN nor an
infinity) whose value lies between 0 and 1. -/
def InUnit (v : F64) : Prop :=
  (∃ neg m e, v = fin neg m e) ∧ 0 ≤ v.toRat ∧ v.toRat ≤ 1

end F64

/-! ## Effects -/

instance {ε α : Type} [DecidableEq ε] [DecidableEq α] : DecidableEq (Except ε α)
  | .ok a, .ok b => decidable_of_iff (a = b) (by simp)
  | .error a, .error b => decidable_of_iff (a = b) (by simp)
  | .ok _, .error _ => isFalse (by simp)
  | .error _, .ok _ => isFalse (by simp)

/-- How a call can stop the program instead of returning. -/
inductive Fault where
  /-- Exit by `log.Fatalf`: the process ends with status 1. -/
  | fatal
  /-- Run-time panic of an array index outside `0..7`. -/
  | indexOutOfRange
  /-- A float-to-int conversion whose result Go leaves to the implementation. -/
  | conversionUndefined
  /-- Exit by `log.Panic` on the error of a file operation. -/
  | panic
deriving DecidableEq

/-- What the functions of the package act on: the strip behind the receiver
`bl`, and the writes made so far to the GPIO value files, oldest first. The
two lines are taken to be configured (`Setup` was called) and a write to a
value file to succeed. -/
structure World where
  bl : Blinkt
  wire : List gpio.LineWrite

instance : DecidableEq World := fun a b =>
  decidable_of_iff (a.bl = b.bl ∧ a.wire = b.wire) (by cases a; cases b; simp)

/-- The outcome of a call: its result or the fault that stopped it, and the
world at that moment. -/
structure Outcome (α : Type) where
  res : Except Fault α
  world : World

instance {α : Type} [DecidableEq α] : DecidableEq (Outcome α) := fun a b =>
  decidable_of_iff (a.res = b.res ∧ a.world = b.world) (by cases a; cases b; simp)

/-- A Go function or method with side effects. -/
def Op (α : Type) : Type := World → Outcome α

namespace Op

/-- Runs an operation from a world. -/
@[reducible] def run {α : Type} (m : Op α) (w : World) : Outcome α := m w

/-- Returning a value: `return a`. -/
protected def pure {α : Type} (a : α) : Op α := fun w => ⟨.ok a, w⟩

/-- Sequencing: a fault of the first statement stops the program there. -/
protected def bind {α β : Type} (m : Op α) (f : α → Op β) : Op β := fun w =>
  match m w with
  | ⟨.ok a, w1⟩ => f a w1
  | ⟨.error e, w1⟩ => ⟨.error e, w1⟩

instance : Monad Op where
  pure := Op.pure
  bind := Op.bind

/-- Stops the program with fault `e`. -/
def fail {α : Type} (e : Fault) : Op α := fun w => ⟨.error e, w⟩

/-- Reads the strip behind the receiver. -/
def getBl : Op Blinkt := fun w => ⟨.ok w.bl, w⟩

/-- Replaces the strip behind the receiver. -/
def setBl (bl : Blinkt) : Op Unit := fun w => ⟨.ok (), { w with bl := bl }⟩

/-- Lifts a computation without side effects. -/
def ofExcept {α : Type} : Except Fault α → Op α
  | .ok a => Op.pure a
  | .error e => fail e

/-- A `for` loop over the elements of `xs`, in order. -/
def forEach {ι : Type} : List ι → (ι → Op Unit) → Op Unit
  | [], _ => Op.pure ()
  | i :: rest, body => Op.bind (body i) (fun _ => forEach rest body)

/-- An operation that returns normally, leaves the strip alone and appends
the writes `f bl` to the wire, `bl` being the strip it runs on. -/
def Emits (m : Op Unit) (f : Blinkt → List gpio.LineWrite) : Prop :=
  ∀ w : World, m w = ⟨.ok (), { w with wire := w.wire ++ f w.bl }⟩

end Op

/-! ## `gpio.go`: the write operations -/

namespace gpio

/-- Go: `strconv.Itoa`. -/
def Itoa (val : Int) : String := toString val

/-- Go: `func DigitalWriteString(pin string, val string)`: writes the bytes of
`val` to the value file of `pin`. -/
def DigitalWriteString (pin : String) (val : String) : Op Unit :=
  fun w => ⟨.ok (), { w with wire := w.wire ++ [⟨pin, val⟩] }⟩

/-- Go: `func DigitalWrite(pin string, val int)`. -/
def DigitalWrite (pin : String) (val : Int) : Op Unit :=
  DigitalWriteString pin (Itoa val)

end gpio

/-! ## `blinkt.go`: constants and the frame encoder -/

def DAT : String := "23"
def CLK : String := "24"
def PIXEL_START : Int := 224
def defaultBrightnessInt : Int := 15

/-- The loop of `writeByte`: `n` iterations remain and `val` is the current
value of the variable `val`. -/
def writeByteLoop : Nat → Int → Op Unit
  | 0, _ => pure ()
  | n + 1, val => do
    gpio.DigitalWrite DAT (Int.land val 128)
    gpio.DigitalWriteString CLK "1"
    let val := wrapInt (val <<< 1)
    gpio.DigitalWriteString CLK "0"
    writeByteLoop n val

/-- Go: `func writeByte(val int)`. -/
def writeByte (val : Int) : Op Unit := writeByteLoop 8 val

/-- The clock loop shared by `sof` and `eof`: `n` pulses. -/
def clockPulses : Nat → Op Unit
  | 0 => pure ()
  | n + 1 => do
    gpio.DigitalWriteString CLK "1"
    gpio.DigitalWriteString CLK "0"
    clockPulses n

/-- Go: `func sof()`. -/
def sof : Op Unit := do
  gpio.DigitalWriteString DAT "0"
  clockPulses 32

/-- Go: `func eof()`. -/
def eof : Op Unit := do
  gpio.DigitalWriteString DAT "0"
  clockPulses 36

/-- The first loop of `Show`: scans the indices in order and stops at the first
one whose previous pixel differs from the current one. -/
def pixelsChanged (bl : Blinkt) : List (Fin 8) → Bool
  | [] => false
  | i :: rest => if bl.previousPixels i ≠ bl.pixels i then true else pixelsChanged bl rest

/-- Go: `func (bl *Blinkt) Show()`. -/
def Show : Op Unit := do
  let bl ← Op.getBl
  if !pixelsChanged bl (List.finRange 8) then
    return ()
  sof
  let pixels := bl.pixels
  Op.forEach (List.finRange 8) (fun p => do
    let pixel := (← Op.getBl).pixels p
    writeByte (Int.lor PIXEL_START pixel.Brightness)
    writeByte pixel.B
    writeByte pixel.G
    writeByte pixel.R)
  eof
  Op.setBl { (← Op.getBl) with previousPixels := pixels }

/-! ## `blinkt.go`: brightness conversion -/

def minBrightness : F64 := F64.ofNat 0
def maxBrightness : F64 := F64.ofNat 1

/-- Go: `func inRangeFloat(minVal float64, testVal float64, maxVal float64) bool`. -/
def inRangeFloat (minVal testVal maxVal : F64) : Bool :=
  (F64.ge testVal minVal) && (F64.le testVal maxVal)

/-- Go: `func convertBrightnessToInt(brightness float64) int`. -/
def convertBrightnessToInt (brightness : F64) : Except Fault Int :=
  if !inRangeFloat minBrightness brightness maxBrightness then
    .error .fatal
  else
    match (F64.mul brightness (F64.ofNat 31)).toInt with
    | some n => .ok n
    | none => .error .conversionUndefined

/-! ## `blinkt.go`: the setters and the constructor -/

/-- The bounds check of an index expression `bl.pixels[p]`. -/
def index (p : Int) : Op (Fin 8) := fun w =>
  if h : 0 ≤ p ∧ p < 8 then ⟨.ok ⟨p.toNat, by omega⟩, w⟩ else ⟨.error .indexOutOfRange, w⟩

/-- An assignment `bl.pixels[p].F = x` to one field of one pixel; `f` sets the
field. -/
def assignPixel (p : Int) (f : Pixel → Pixel) : Op Unit := do
  let i ← index p
  let bl ← Op.getBl
  Op.setBl { bl with pixels := Function.update bl.pixels i (f (bl.pixels i)) }

/-- Go: `func (bl *Blinkt) SetPixel(p int, r int, g int, b int) *Blinkt`. -/
def SetPixel (p r g b : Int) : Op Unit := do
  assignPixel p (fun px => { px with R := r })
  assignPixel p (fun px => { px with G := g })
  assignPixel p (fun px => { px with B := b })

/-- Go: `func (bl *Blinkt) SetAll(r int, g int, b int) *Blinkt`. -/
def SetAll (r g b : Int) : Op Unit :=
  Op.forEach (List.finRange 8) (fun p => SetPixel ((p : Nat) : Int) r g b)

/-- Go: `func (bl *Blinkt) Clear()`. -/
def Clear : Op Unit := SetAll 0 0 0

/-- Go: `func (bl *Blinkt) SetBrightness(brightness float64) *Blinkt`. -/
def SetBrightness (brightness : F64) : Op Unit := do
  let brightnessInt ← Op.ofExcept (convertBrightnessToInt brightness)
  Op.forEach (List.finRange 8) (fun p =>
    assignPixel ((p : Nat) : Int) (fun px => { px with Brightness := brightnessInt }))

/-- Go: `func (bl *Blinkt) SetPixelBrightness(p int, brightness float64) *Blinkt`. -/
def SetPixelBrightness (p : Int) (brightness : F64) : Op Unit := do
  let brightnessInt ← Op.ofExcept (convertBrightnessToInt brightness)
  assignPixel p (fun px => { px with Brightness := brightnessInt })

/-- Go: `func initPixels(brightness int) [8]Pixel`. -/
def initPixels (brightness : Int) : Fin 8 → Pixel :=
  (List.finRange 8).foldl (fun pixels p => Function.update pixels p ⟨0, 0, 0, brightness⟩)
    zeroPixels

/-- Go: `func NewBlinkt(brightness ...float64) Blinkt`; the variadic parameter
is the list of the arguments. The composite literal names `pixels` only, so
`previousPixels` is the zero value. -/
def NewBlinkt (brightness : List F64) : Except Fault Blinkt := do
  let brightnessInt ←
    match brightness with
    | [] => pure defaultBrightnessInt
    | b0 :: _ => convertBrightnessToInt b0
  return { pixels := initPixels brightnessInt, previousPixels := zeroPixels }

/-! ## The writes of a frame, in closed form -/

/-- The writes of `writeByte val` (see `writeByte_emits`): step `i` writes the
decimal text of bit 7 of `val * 2 ^ i`, weighted 128, to the data line and
pulses the clock. -/
def byteWrites (val : Int) : List gpio.LineWrite :=
  (List.range 8).flatMap (fun i =>
    [⟨DAT, gpio.Itoa (128 * (val * 2 ^ i / 128 % 2))⟩, ⟨CLK, "1"⟩, ⟨CLK, "0"⟩])

/-- The writes of `n` clock pulses. -/
def pulseWrites (n : Nat) : List gpio.LineWrite :=
  (List.replicate n [⟨CLK, "1"⟩, ⟨CLK, "0"⟩]).flatten

/-- The writes of the four `writeByte` calls for one pixel. -/
def pixelWrites (pixel : Pixel) : List gpio.LineWrite :=
  byteWrites (Int.lor PIXEL_START pixel.Brightness) ++ byteWrites pixel.B
    ++ byteWrites pixel.G ++ byteWrites pixel.R

/-- The writes of a `Show` that emits a frame (see `Show_apply`). -/
def frameWrites (pixels : Fin 8 → Pixel) : List gpio.LineWrite :=
  (⟨DAT, "0"⟩ :: pulseWrites 32)
    ++ (List.finRange 8).flatMap (fun p => pixelWrites (pixels p))
    ++ (⟨DAT, "0"⟩ :: pulseWrites 36)

/-! ## Calls of the setters -/

/-- A call of one of the five setters of the strip, with its arguments. -/
inductive Setter where
  | SetPixel (p r g b : Int)
  | SetAll (r g b : Int)
  | Clear
  | SetBrightness (brightness : F64)
  | SetPixelBrightness (p : Int) (brightness : F64)

/-- The method a setter call runs. -/
def Setter.op : Setter → Op Unit
  | .SetPixel p r g b => sysfs.SetPixel p r g b
  | .SetAll r g b => sysfs.SetAll r g b
  | .Clear => sysfs.Clear
  | .SetBrightness v => sysfs.SetBrightness v
  | .SetPixelBrightness p v => sysfs.SetPixelBrightness p v

/-! ## Sequences of calls -/

/-- A call of a method of the strip: one of the setters, or `Show`. -/
inductive Call where
  | setter (c : Setter)
  | Show

/-- The method a call runs. -/
def Call.op : Call → Op Unit
  | .setter c => c.op
  | .Show => sysfs.Show

/-- The `float64` arguments of a setter call are binary64 numbers. -/
def Setter.ArgsValid : Setter → Prop
  | .SetBrightness v => v.Valid
  | .SetPixelBrightness _ v => v.Valid
  | _ => True

/-- The `float64` arguments of a call are binary64 numbers. -/
def Call.ArgsValid : Call → Prop
  | .setter c => c.ArgsValid
  | .Show => True

/-- The calls of `cs` one after the other; it returns normally when every
call did. -/
def runCalls (cs : List Call) : Op Unit := Op.forEach cs Call.op

/-- Every current pixel has its brightness in `[0, 31]`. -/
def BrightnessOk (bl : Blinkt) : Prop :=
  ∀ i, 0 ≤ (bl.pixels i).Brightness ∧ (bl.pixels i).Brightness ≤ 31

/-! ## `gpio.go`: the pin table and its release -/

namespace gpio

/-- Go: an `*os.File`, as far as the package uses it: open until `Close` is
called on it. -/
structure File where
  isOpen : Bool
deriving DecidableEq

/-- Go: `type gpioPin struct { valueFd *os.File; directionFd *os.File }`. -/
structure gpioPin where
  valueFd : File
  directionFd : File
deriving DecidableEq

/-- A call that releases a line: `Close` on one of the two files of a pin, or
the write of the pin to `/sys/class/gpio/unexport`. -/
inductive Release where
  | closeDirection (pin : String)
  | closeValue (pin : String)
  | unexport (pin : String)
deriving DecidableEq

/-- The state behind package `gpio`: the map `gpioPins` (a list of its entries,
in the order `range` visits them, which Go leaves open), the pins the kernel
has exported under `/sys/class/gpio`, and the release calls made so far,
oldest first. -/
structure Driver where
  gpioPins : List (String × gpioPin)
  exported : List String
  released : List Release
deriving DecidableEq

/-- The keys of the map `gpioPins`. -/
def Driver.pins (d : Driver) : List String := d.gpioPins.map Prod.fst

/-- The state after `Setup` and `PinMode` of the lines of a strip that is
Ready: every pin of the map is exported and has its two files open, no pin
occurs twice, and the data and the clock line are among them. -/
def Driver.Ready (d : Driver) : Prop :=
  d.pins.Nodup ∧ DAT ∈ d.pins ∧ CLK ∈ d.pins
    ∧ ∀ e ∈ d.gpioPins, e.1 ∈ d.exported ∧ e.2.valueFd.isOpen = true
        ∧ e.2.directionFd.isOpen = true

instance : DecidablePred Driver.Ready := fun d => by
  unfold Driver.Ready; infer_instance

end gpio

/-- A strip together with the GPIO driver it writes through. -/
structure System where
  world : World
  driver : gpio.Driver

instance : DecidableEq System := fun a b =>
  decidable_of_iff (a.world = b.world ∧ a.driver = b.driver) (by cases a; cases b; simp)

/-- The outcome of a call on a system: its result or the fault that stopped
it, and the system at that moment. -/
structure SysOutcome (α : Type) where
  res : Except Fault α
  sys : System

instance {α : Type} [DecidableEq α] : DecidableEq (SysOutcome α) := fun a b =>
  decidable_of_iff (a.res = b.res ∧ a.sys = b.sys) (by cases a; cases b; simp)

/-- A Go function that acts on the strip and on the driver. -/
def SysOp (α : Type) : Type := System → SysOutcome α

namespace SysOp

/-- Runs an operation from a system. -/
@[reducible] def run {α : Type} (m : SysOp α) (s : System) : SysOutcome α := m s

/-- Returning a value. -/
protected def pure {α : Type} (a : α) : SysOp α := fun s => ⟨.ok a, s⟩

/-- Sequencing: a fault of the first statement stops the program there. -/
protected def bind {α β : Type} (m : SysOp α) (f : α → SysOp β) : SysOp β := fun s =>
  match m s with
  | ⟨.ok a, s1⟩ => f a s1
  | ⟨.error e, s1⟩ => ⟨.error e, s1⟩

instance : Monad SysOp where
  pure := SysOp.pure
  bind := SysOp.bind

/-- A method of the strip, run on the strip of the system; its line writes go
to the wire of the strip (see `World`) and the driver is left alone. -/
def onStrip {α : Type} (m : Op α) : SysOp α := fun s =>
  ⟨(m s.world).res, { s with world := (m s.world).world }⟩

end SysOp

namespace gpio

/-- Go: `v.directionFd.Close()` in `Cleanup`, `v` being the entry of `pin`:
the file behind the entry is closed; the error of closing a closed file is
dropped. -/
def closeDirection (pin : String) : SysOp Unit := fun s =>
  ⟨.ok (), { s with driver := { s.driver with
    gpioPins := s.driver.gpioPins.map (fun e =>
      if e.1 = pin then (e.1, { e.2 with directionFd := ⟨false⟩ }) else e)
    released := s.driver.released ++ [.closeDirection pin] } }⟩

/-- Go: `v.valueFd.Close()` in `Cleanup`. -/
def closeValue (pin : String) : SysOp Unit := fun s =>
  ⟨.ok (), { s with driver := { s.driver with
    gpioPins := s.driver.gpioPins.map (fun e =>
      if e.1 = pin then (e.1, { e.2 with valueFd := ⟨false⟩ }) else e)
    released := s.driver.released ++ [.closeValue pin] } }⟩

/-- Go: `func unexport(pin string)`: the pin is written to
`/sys/class/gpio/unexport`. The kernel accepts the write for a pin it has
exported, which it then removes, and rejects it otherwise; a rejected write
ends in `log.Panic`. -/
def unexport (pin : String) : SysOp Unit := fun s =>
  if pin ∈ s.driver.exported then
    ⟨.ok (), { s with driver := { s.driver with
      exported := s.driver.exported.filter (fun q => q ≠ pin)
      released := s.driver.released ++ [.unexport pin] } }⟩
  else
    ⟨.error .panic, { s with driver := { s.driver with
      released := s.driver.released ++ [.unexport pin] } }⟩

/-- The loop of `Cleanup` over the entries of the map that remain to visit. -/
def cleanupLoop : List (String × gpioPin) → SysOp Unit
  | [] => pure ()
  | (k, _) :: rest => do
    closeDirection k
    closeValue k
    unexport k
    cleanupLoop rest

/-- Go: `func Cleanup()`. -/
def Cleanup : SysOp Unit := fun s => cleanupLoop s.driver.gpioPins s

end gpio

namespace gpio

/-- The release calls `Cleanup` makes for the entries `es` when none fails. -/
def releaseCalls (es : List (String × gpioPin)) : List Release :=
  es.flatMap (fun e => [.closeDirection e.1, .closeValue e.1, .unexport e.1])

/-- The state after the two `Close` calls of one round of the loop. -/
def closedPin (k : String) (s : System) : System :=
  (closeValue k (closeDirection k s).sys).sys

/-- The state after a round of the loop whose unexport the kernel accepts. -/
def unexported (k : String) (s : System) : System :=
  { closedPin k s with driver := { (closedPin k s).driver with
      exported := s.driver.exported.filter (fun q => q ≠ k)
      released := (closedPin k s).driver.released ++ [.unexport k] } }

/-- The state after a round of the loop whose unexport the kernel rejects. -/
def rejected (k : String) (s : System) : System :=
  { closedPin k s with driver := { (closedPin k s).driver with
      released := (closedPin k s).driver.released ++ [.unexport k] } }

end gpio

/-- The current array after `Clear`: every colour 0, every brightness kept. -/
def clearedPixels (pixels : Fin 8 → Pixel) : Fin 8 → Pixel :=
  fun i => ⟨0, 0, 0, (pixels i).Brightness⟩

/-- Go: `func (bl *Blinkt) Close()`. -/
def Close : SysOp Unit := do
  SysOp.onStrip Clear
  SysOp.onStrip Show
  gpio.Cleanup

/-- A driver that is Ready for a strip: the data and the clock line
configured, nothing released yet. -/
def readyDriver : gpio.Driver :=
  { gpioPins := [(DAT, ⟨⟨true⟩, ⟨true⟩⟩), (CLK, ⟨⟨true⟩, ⟨true⟩⟩)]
    exported := [DAT, CLK]
    released := [] }

/-! ## Example strips -/

/-- Whether every field of a pixel is in its range: `R`, `G`, `B` in
`[0,255]` and `Brightness` in `[0,31]`. -/
def Pixel.InRange (px : Pixel) : Prop :=
  (0 ≤ px.R ∧ px.R ≤ 255) ∧ (0 ≤ px.G ∧ px.G ≤ 255) ∧ (0 ≤ px.B ∧ px.B ≤ 255)
    ∧ (0 ≤ px.Brightness ∧ px.Brightness ≤ 31)

instance : DecidablePred Pixel.InRange := fun px => by
  unfold Pixel.InRange; infer_instance

/-- Eight black pixels of brightness `brightness`. -/
def uniformPixels (brightness : Int) : Fin 8 → Pixel := fun _ => ⟨0, 0, 0, brightness⟩

/-- A strip that was never flushed, pixel 0 set to `R=255, G=0, B=128` at
full brightness, the others black at the default brightness. -/
def exampleWorld : World :=
  ⟨⟨Function.update (uniformPixels 15) 0 ⟨255, 0, 128, 31⟩, zeroPixels⟩, []⟩

/-- A strip whose last frame is on the wire: both arrays hold the same
pixels. -/
def flushedWorld : World :=
  ⟨⟨uniformPixels 15, uniformPixels 15⟩, []⟩

/-- The flushed strip after `SetPixel(0, 1, 0, 0)`: pixel 0 differs from the
snapshot. -/
def revertWorld : World :=
  ⟨⟨Function.update (uniformPixels 15) 0 ⟨1, 0, 0, 15⟩, uniformPixels 15⟩, []⟩

/-- The `float64` nearest to 1/31, the value of the Go expression
`1.0 / 31.0`: `0x1.0842108421084p-5`. -/
def thirtyFirst : F64 := F64.fin false ((2 ^ 57 - 4) / 31) (-57)

/-- The flushed strip on a Ready driver. -/
def readySystem : System := ⟨flushedWorld, readyDriver⟩

/-- The example strip, never flushed, on a Ready driver. -/
def exampleSystem : System := ⟨exampleWorld, readyDriver⟩

/-! ## The wire protocol in the words of the specification -/

/-- The level a GPIO line is driven to. -/
inductive Level where
  | low
  | high
deriving DecidableEq

namespace gpio

/-- The level a write to a sysfs value file drives the line to: the text is
read as a number, `0` is low and any other number is high. -/
def level (val : String) : Level := if val = "0" then .low else .high

/-- A write seen from the wire: the line and the level it is driven to. -/
def LineWrite.signal (x : LineWrite) : String × Level := (x.pin, level x.val)

end gpio

namespace Spec

/-- One clock pulse: clock high, then clock low. -/
def pulse : List (String × Level) := [(CLK, .high), (CLK, .low)]

/-- Clock pulses, `n` of them. -/
def pulses (n : Nat) : List (String × Level) := (List.replicate n pulse).flatten

/-- A byte on the wire: for bit 7 down to bit 0, the data line driven high
exactly when the bit is 1, then one clock pulse. -/
def byteSteps (b : Nat) : List (String × Level) :=
  (List.range 8).flatMap (fun i => (DAT, if b.testBit (7 - i) then .high else .low) :: pulse)

/-- The four bytes of a pixel, in wire order. -/
def pixelBytes (px : Pixel) : List Nat :=
  [0xE0 ||| px.Brightness.toNat, px.B.toNat, px.G.toNat, px.R.toNat]

/-- A frame: data low and 32 pulses, the bytes of the pixels 0 to 7, data low
and 36 pulses. -/
def frame (pixels : Fin 8 → Pixel) : List (String × Level) :=
  (DAT, .low) :: pulses 32
    ++ (List.finRange 8).flatMap (fun i => (pixelBytes (pixels i)).flatMap byteSteps)
    ++ (DAT, .low) :: pulses 36

end Spec

/-! ## Reading the wire -/

/-- The writes of one bit step for each text of `texts`: the text to the data
line, then one clock pulse. -/
def stepWrites (texts : List String) : List gpio.LineWrite :=
  texts.flatMap (fun t => [⟨DAT, t⟩, ⟨CLK, "1"⟩, ⟨CLK, "0"⟩])

/-- The texts `writeByte val` writes to the data line, in order. -/
def byteTexts (val : Int) : List String :=
  (List.range 8).map (fun i => gpio.Itoa (128 * (val * 2 ^ i / 128 % 2)))

/-- The texts a frame writes to the data line between its two markers. -/
def frameTexts (pixels : Fin 8 → Pixel) : List String :=
  (List.finRange 8).flatMap (fun p =>
    byteTexts (Int.lor PIXEL_START (pixels p).Brightness) ++ byteTexts (pixels p).B
      ++ byteTexts (pixels p).G ++ byteTexts (pixels p).R)

/-- The texts the package writes to the two lines: `0` or `128` to the data
line, `0` or `1` to the clock line. -/
def WireText (x : gpio.LineWrite) : Prop :=
  (x.pin = DAT ∧ (x.val = "0" ∨ x.val = "128")) ∨ (x.pin = CLK ∧ (x.val = "0" ∨ x.val = "1"))

namespace Spec

/-- The levels the clock line is driven to by the writes `ws`, in order. -/
def clockLevels (ws : List gpio.LineWrite) : List Level :=
  (ws.filter (fun x => x.pin = CLK)).map (fun x => gpio.level x.val)

/-- Whether every write of `ws` to the data line happens while the clock is
low, `clk` being the level of the clock before `ws` (low when the clock was
never written). -/
def dataWhileClockLow : Level → List gpio.LineWrite → Bool
  | _, [] => true
  | clk, x :: rest =>
    if x.pin = CLK then dataWhileClockLow (gpio.level x.val) rest
    else if x.pin = DAT then decide (clk = .low) && dataWhileClockLow clk rest
    else dataWhileClockLow clk rest

/-- The level of the data line at each write that drives the clock high,
`dat` being the level of the data line before `ws`. -/
def samples : Level → List gpio.LineWrite → List Level
  | _, [] => []
  | dat, x :: rest =>
    if x.pin = DAT then samples (gpio.level x.val) rest
    else if x.pin = CLK ∧ gpio.level x.val = .high then dat :: samples dat rest
    else samples dat rest

/-- The bits of a byte, most significant first, as levels of the data line. -/
def byteLevels (b : Nat) : List Level :=
  (List.range 8).map (fun i => if b.testBit (7 - i) then Level.high else Level.low)

/-- The number whose binary digits, most significant first, are `bits`. -/
def bitsToNat (bits : List Level) : Nat :=
  bits.foldl (fun acc b => 2 * acc + (if b = .high then 1 else 0)) 0

/-- The first `n` bytes of a list of bits, 8 bits to a byte. -/
def groupBytes : Nat → List Level → List Nat
  | 0, _ => []
  | n + 1, bits => bitsToNat (bits.take 8) :: groupBytes n (bits.drop 8)

/-- The bytes a receiver reads from the writes of a frame: the samples
without the first 32 and the last 36, grouped into 32 bytes. -/
def decode (ws : List gpio.LineWrite) : List Nat :=
  groupBytes 32 (((samples .low ws).drop 32).take ((samples .low ws).length - 32 - 36))

end Spec

end sysfs

/-! # Lemmas -/

namespace sysfs

namespace Op

theorem pure_apply {α : Type} (a : α) (w : World) : (pure a : Op α) w = ⟨.ok a, w⟩ := rfl

theorem bind_apply {α β : Type} (m : Op α) (f : α → Op β) (w : World) :
    (m >>= f) w = match m w with
      | ⟨.ok a, w1⟩ => f a w1
      | ⟨.error e, w1⟩ => ⟨.error e, w1⟩ := rfl

theorem bind_of_ok {α β : Type} {m : Op α} {f : α → Op β} {w w1 : World} {a : α}
    (h : m w = ⟨.ok a, w1⟩) : (m >>= f) w = f a w1 := by
  rw [bind_apply, h]

theorem bind_of_error {α β : Type} {m : Op α} {f : α → Op β} {w w1 : World} {e : Fault}
    (h : m w = ⟨.error e, w1⟩) : (m >>= f) w = ⟨.error e, w1⟩ := by
  rw [bind_apply, h]

theorem forEach_nil {ι : Type} (body : ι → Op Unit) (w : World) :
    forEach [] body w = ⟨.ok (), w⟩ := rfl

theorem forEach_cons {ι : Type} (i : ι) (rest : List ι) (body : ι → Op Unit) :
    forEach (i :: rest) body = (body i >>= fun _ => forEach rest body) := rfl

theorem Emits.pure : Emits (pure ()) (fun _ => []) := by
  intro w
  simp [pure_apply]

theorem Emits.bind {m n : Op Unit} {f g : Blinkt → List gpio.LineWrite}
    (hm : Emits m f) (hn : Emits n g) :
    Emits (m >>= fun _ => n) (fun bl => f bl ++ g bl) := by
  intro w
  rw [bind_of_ok (hm w), hn]
  simp

theorem Emits.forEach {ι : Type} {body : ι → Op Unit} {f : ι → Blinkt → List gpio.LineWrite}
    (h : ∀ i, Emits (body i) (f i)) (xs : List ι) :
    Emits (forEach xs body) (fun bl => xs.flatMap (fun i => f i bl)) := by
  induction xs with
  | nil => intro w; simp [forEach_nil]
  | cons i rest ih =>
    rw [forEach_cons]
    have := Emits.bind (h i) ih
    simpa using this

end Op

theorem gpio.DigitalWriteString_emits (pin val : String) :
    Op.Emits (gpio.DigitalWriteString pin val) (fun _ => [⟨pin, val⟩]) := fun _ => rfl

theorem gpio.DigitalWrite_emits (pin : String) (val : Int) :
    Op.Emits (gpio.DigitalWrite pin val) (fun _ => [⟨pin, gpio.Itoa val⟩]) := fun _ => rfl

end sysfs

namespace sysfs

/-! ## The frame encoder -/

theorem nat_land_128 (m : Nat) : m &&& 128 = 128 * (m / 128 % 2) := by
  have h := Nat.and_two_pow m 7
  rw [Nat.testBit_to_div_mod] at h
  norm_num at h
  rw [h]
  rcases Nat.mod_two_eq_zero_or_one (m / 128) with h0 | h1
  · simp [h0]
  · simp [h1]

theorem nat_ldiff_128 (m : Nat) : Nat.ldiff 128 m = 128 * (1 - m / 128 % 2) := by
  have key : Nat.ldiff 128 m = if m.testBit 7 then 0 else 128 := by
    apply Nat.eq_of_testBit_eq
    intro i
    rw [Nat.testBit_ldiff]
    have e : (128 : Nat) = 2 ^ 7 := by norm_num
    by_cases hb : m.testBit 7
    · simp only [hb, if_true, Nat.zero_testBit]
      rw [e, Nat.testBit_two_pow]
      by_cases hi : 7 = i
      · subst hi; simp [hb]
      · simp [hi]
    · simp only [hb, Bool.false_eq_true, if_false]
      rw [e, Nat.testBit_two_pow]
      by_cases hi : 7 = i
      · subst hi; simp [hb]
      · simp [hi]
  rw [key, Nat.testBit_to_div_mod]
  norm_num
  rcases Nat.mod_two_eq_zero_or_one (m / 128) with h0 | h1
  · simp [h0]
  · simp [h1]

theorem land_128 (x : Int) : Int.land x 128 = 128 * (x / 128 % 2) := by
  cases x with
  | ofNat m =>
    show Int.land (Int.ofNat m) (Int.ofNat 128) = _
    simp only [Int.land]
    rw [nat_land_128]
    simp only [Int.ofNat_eq_coe]
    push_cast
    omega
  | negSucc m =>
    show Int.land (Int.negSucc m) (Int.ofNat 128) = _
    simp only [Int.land]
    rw [nat_ldiff_128]
    have : m / 128 % 2 < 2 := Nat.mod_lt _ (by norm_num)
    rw [Int.negSucc_eq]
    push_cast [Nat.cast_sub (show m / 128 % 2 ≤ 1 by omega)]
    omega

theorem bit7_of_emod (x y : Int) (h : x % 256 = y % 256) : x / 128 % 2 = y / 128 % 2 := by
  omega

theorem bit7_wrap_shift (val : Int) (i : Nat) :
    wrapInt (val <<< 1) * 2 ^ i / 128 % 2 = val * 2 ^ (i + 1) / 128 % 2 := by
  apply bit7_of_emod
  have h1 : val <<< (1 : Int) = val * 2 := by
    have := Int.shiftLeft_eq_mul_pow val 1
    simpa using this
  rw [h1]
  have h2 : wrapInt (val * 2) % 256 = (val * 2) % 256 := by
    unfold wrapInt; omega
  rw [Int.mul_emod, h2, ← Int.mul_emod, pow_succ]
  ring_nf

/-- The writes of the loop of `writeByte`: iteration `i` writes bit 7 of
`val * 2 ^ i` (as `0` or `128`) to the data line and pulses the clock. -/
theorem writeByteLoop_emits (n : Nat) (val : Int) :
    Op.Emits (writeByteLoop n val) (fun _ => (List.range n).flatMap (fun i =>
      [⟨DAT, gpio.Itoa (128 * (val * 2 ^ i / 128 % 2))⟩, ⟨CLK, "1"⟩, ⟨CLK, "0"⟩])) := by
  induction n generalizing val with
  | zero => exact Op.Emits.pure
  | succ n ih =>
    unfold writeByteLoop
    have h := Op.Emits.bind (gpio.DigitalWrite_emits DAT (Int.land val 128))
      (Op.Emits.bind (gpio.DigitalWriteString_emits CLK "1")
        (Op.Emits.bind (gpio.DigitalWriteString_emits CLK "0") (ih (wrapInt (val <<< 1)))))
    intro w
    rw [h w]
    simp only [List.range_succ_eq_map, List.flatMap_cons, List.flatMap_map, bit7_wrap_shift,
      land_128]
    simp

theorem writeByte_emits (val : Int) : Op.Emits (writeByte val) (fun _ => byteWrites val) :=
  writeByteLoop_emits 8 val

theorem clockPulses_emits (n : Nat) :
    Op.Emits (clockPulses n) (fun _ => pulseWrites n) := by
  unfold pulseWrites
  induction n with
  | zero => exact Op.Emits.pure
  | succ n ih =>
    unfold clockPulses
    have h := Op.Emits.bind (gpio.DigitalWriteString_emits CLK "1")
      (Op.Emits.bind (gpio.DigitalWriteString_emits CLK "0") ih)
    intro w
    rw [h w]
    simp [List.replicate_succ]

theorem sof_emits :
    Op.Emits sof (fun _ => ⟨DAT, "0"⟩ :: pulseWrites 32) := by
  have h := Op.Emits.bind (gpio.DigitalWriteString_emits DAT "0") (clockPulses_emits 32)
  intro w
  unfold sof
  rw [h w]
  rfl

theorem eof_emits :
    Op.Emits eof (fun _ => ⟨DAT, "0"⟩ :: pulseWrites 36) := by
  have h := Op.Emits.bind (gpio.DigitalWriteString_emits DAT "0") (clockPulses_emits 36)
  intro w
  unfold eof
  rw [h w]
  rfl

/-! ## `Show` -/

theorem pixelsChanged_eq_false_iff (bl : Blinkt) (xs : List (Fin 8)) :
    pixelsChanged bl xs = false ↔ ∀ i ∈ xs, bl.previousPixels i = bl.pixels i := by
  induction xs with
  | nil => simp [pixelsChanged]
  | cons i rest ih =>
    unfold pixelsChanged
    by_cases h : bl.previousPixels i = bl.pixels i
    · simp [h, ih]
    · simp [h]

/-- The change detection of `Show` is false exactly when the two arrays are
equal. -/
theorem pixelsChanged_finRange (bl : Blinkt) :
    pixelsChanged bl (List.finRange 8) = false ↔ bl.pixels = bl.previousPixels := by
  rw [pixelsChanged_eq_false_iff]
  constructor
  · intro h
    funext i
    exact (h i (List.mem_finRange i)).symm
  · intro h i _
    rw [h]

theorem pixelBody_emits (p : Fin 8) :
    Op.Emits (do
      let pixel := (← Op.getBl).pixels p
      writeByte (Int.lor PIXEL_START pixel.Brightness)
      writeByte pixel.B
      writeByte pixel.G
      writeByte pixel.R) (fun bl => pixelWrites (bl.pixels p)) := by
  intro w
  have h := Op.Emits.bind (writeByte_emits (Int.lor PIXEL_START (w.bl.pixels p).Brightness))
    (Op.Emits.bind (writeByte_emits (w.bl.pixels p).B)
      (Op.Emits.bind (writeByte_emits (w.bl.pixels p).G) (writeByte_emits (w.bl.pixels p).R)))
  have hget : Op.getBl w = ⟨.ok w.bl, w⟩ := rfl
  rw [Op.bind_of_ok hget]
  rw [h w]
  simp [pixelWrites]

/-- What `Show` does: nothing when the arrays are equal; otherwise it writes
one frame and copies the current array into the previous one. -/
theorem Show_apply (w : World) :
    Show w = if w.bl.pixels = w.bl.previousPixels then ⟨.ok (), w⟩
      else ⟨.ok (), ⟨⟨w.bl.pixels, w.bl.pixels⟩, w.wire ++ frameWrites w.bl.pixels⟩⟩ := by
  have hget : Op.getBl w = ⟨.ok w.bl, w⟩ := rfl
  unfold Show
  rw [Op.bind_of_ok hget]
  by_cases hsame : w.bl.pixels = w.bl.previousPixels
  · have hc := (pixelsChanged_finRange w.bl).2 hsame
    simp only [hc, hsame, if_true]
    rfl
  · have hc : pixelsChanged w.bl (List.finRange 8) = true := by
      rw [← Bool.not_eq_false]
      exact fun h => hsame ((pixelsChanged_finRange w.bl).1 h)
    have hpure : (pure PUnit.unit : Op PUnit) w = ⟨.ok PUnit.unit, w⟩ := rfl
    simp only [hc, hsame, if_false, Bool.not_true, Bool.false_eq_true]
    rw [Op.bind_of_ok hpure, Op.bind_of_ok (sof_emits w),
      Op.bind_of_ok (Op.Emits.forEach pixelBody_emits (List.finRange 8) _),
      Op.bind_of_ok (eof_emits _)]
    simp [Op.bind_apply, Op.getBl, Op.setBl, frameWrites]

/-! ## The frame on the wire -/

theorem signal_data_bit (v i : Nat) (hi : i < 8) :
    gpio.level (gpio.Itoa (128 * (((v : Int) * 2 ^ i) / 128 % 2)))
      = if v.testBit (7 - i) then Level.high else Level.low := by
  rw [Nat.testBit_to_div_mod]
  have key : ((v : Int) * 2 ^ i) / 128 % 2 = ((v / 2 ^ (7 - i) % 2 : Nat) : Int) := by
    interval_cases i <;> norm_num <;> omega
  rw [key]
  rcases Nat.mod_two_eq_zero_or_one (v / 2 ^ (7 - i)) with h | h
  · rw [h]; simp; decide
  · rw [h]; simp; decide

theorem byteWrites_signal (val : Int) (h0 : 0 ≤ val) :
    (byteWrites val).map gpio.LineWrite.signal = Spec.byteSteps val.toNat := by
  obtain ⟨v, rfl⟩ := Int.eq_ofNat_of_zero_le h0
  unfold byteWrites Spec.byteSteps Spec.pulse
  rw [List.map_flatMap]
  apply List.flatMap_congr
  intro i hi
  have hi8 : i < 8 := List.mem_range.1 hi
  simp only [List.map_cons, List.map_nil, gpio.LineWrite.signal, Int.toNat_ofNat]
  rw [signal_data_bit v i hi8]
  simp [gpio.level, CLK]

theorem lor_pixel_start (b : Int) (h0 : 0 ≤ b) :
    Int.lor PIXEL_START b = ((0xE0 ||| b.toNat : Nat) : Int) := by
  obtain ⟨n, rfl⟩ := Int.eq_ofNat_of_zero_le h0
  rfl

theorem pixelWrites_signal (px : Pixel) (h : px.InRange) :
    (pixelWrites px).map gpio.LineWrite.signal = (Spec.pixelBytes px).flatMap Spec.byteSteps := by
  obtain ⟨⟨hr, _⟩, ⟨hg, _⟩, ⟨hb, _⟩, ⟨hbr, _⟩⟩ := h
  unfold pixelWrites Spec.pixelBytes
  simp only [List.map_append, List.flatMap_cons, List.flatMap_nil, List.append_nil]
  rw [byteWrites_signal _ hr, byteWrites_signal _ hg, byteWrites_signal _ hb,
    lor_pixel_start _ hbr, byteWrites_signal _ (Int.ofNat_nonneg _)]
  simp

theorem pulseWrites_signal (n : Nat) :
    (pulseWrites n).map gpio.LineWrite.signal = Spec.pulses n := by
  unfold pulseWrites Spec.pulses Spec.pulse
  induction n with
  | zero => rfl
  | succ n ih =>
    simp only [List.replicate_succ, List.flatten_cons, List.map_append, ih]
    rfl

theorem frameWrites_signal (pixels : Fin 8 → Pixel) (h : ∀ i, (pixels i).InRange) :
    (frameWrites pixels).map gpio.LineWrite.signal = Spec.frame pixels := by
  unfold frameWrites Spec.frame
  simp only [List.map_append, List.map_cons, pulseWrites_signal, List.map_flatMap]
  have hpx : ∀ i : Fin 8, (pixelWrites (pixels i)).map gpio.LineWrite.signal
      = (Spec.pixelBytes (pixels i)).flatMap Spec.byteSteps :=
    fun i => pixelWrites_signal _ (h i)
  simp only [hpx]
  rfl

theorem pixelBytes_lt (px : Pixel) (h : px.InRange) : ∀ b ∈ Spec.pixelBytes px, b < 256 := by
  obtain ⟨⟨_, hr⟩, ⟨_, hg⟩, ⟨_, hb⟩, ⟨_, hbr⟩⟩ := h
  have hbr2 : px.Brightness.toNat < 2 ^ 8 := by omega
  have hor : 0xE0 ||| px.Brightness.toNat < 2 ^ 8 := Nat.or_lt_two_pow (by norm_num) hbr2
  intro b hb
  simp only [Spec.pixelBytes, List.mem_cons, List.mem_singleton, List.not_mem_nil, or_false] at hb
  rcases hb with rfl | rfl | rfl | rfl <;> omega

/-! ## Brightness conversion -/

namespace F64

theorem bitLengthAux_le_iff (fuel : Nat) : ∀ (n k : Nat), n ≤ fuel →
    (bitLengthAux fuel n ≤ k ↔ n < 2 ^ k) := by
  induction fuel with
  | zero =>
    intro n k hn
    have : n = 0 := by omega
    subst this
    simp [bitLengthAux]
  | succ fuel ih =>
    intro n k hn
    unfold bitLengthAux
    by_cases h0 : n = 0
    · subst h0; simp
    · simp only [h0, if_false]
      have hhalf : n / 2 ≤ fuel := by omega
      cases k with
      | zero => simp; omega
      | succ k =>
        rw [Nat.add_le_add_iff_right, ih (n / 2) k hhalf, pow_succ]
        omega

theorem bitLength_le_iff (n k : Nat) : bitLength n ≤ k ↔ n < 2 ^ k :=
  bitLengthAux_le_iff n n k le_rfl

theorem lt_bitLength_iff (n k : Nat) : k < bitLength n ↔ 2 ^ k ≤ n := by
  rw [← not_le, bitLength_le_iff, not_lt]

/-- Rounding to nearest never passes an integer bound: if the exact value
`M / 2 ^ d` is at most `K`, so is the rounded quotient. -/
theorem rounded_le (M d K : Nat) (h : M ≤ K * 2 ^ d) :
    (if (decide (2 ^ d < 2 * (M % 2 ^ d))
        || (decide (2 * (M % 2 ^ d) = 2 ^ d) && decide (M / 2 ^ d % 2 = 1))) = true
      then M / 2 ^ d + 1 else M / 2 ^ d) ≤ K := by
  have hpos : 0 < 2 ^ d := Nat.pos_pow_of_pos d (by norm_num)
  have hq : M / 2 ^ d ≤ K := Nat.div_le_of_le_mul (by rw [Nat.mul_comm]; exact h)
  have hdm := Nat.div_add_mod M (2 ^ d)
  rcases Nat.lt_or_ge (M / 2 ^ d) K with hlt | hge
  · split <;> omega
  · have hqK : M / 2 ^ d = K := le_antisymm hq hge
    have hr : M % 2 ^ d = 0 := by
      rw [hqK, Nat.mul_comm] at hdm
      omega
    have hne : ¬ (0 = 2 ^ d) := by omega
    simp [hr, hqK, hne]

/-- Rounding to nearest never falls below an integer bound: if the exact value
`M / 2 ^ d` is at least `K`, so is the rounded quotient. -/
theorem rounded_ge (M d K : Nat) (h : K * 2 ^ d ≤ M) :
    K ≤ (if (decide (2 ^ d < 2 * (M % 2 ^ d))
        || (decide (2 * (M % 2 ^ d) = 2 ^ d) && decide (M / 2 ^ d % 2 = 1))) = true
      then M / 2 ^ d + 1 else M / 2 ^ d) := by
  have hpos : 0 < 2 ^ d := Nat.pos_pow_of_pos d (by norm_num)
  have hq : K ≤ M / 2 ^ d := (Nat.le_div_iff_mul_le hpos).2 h
  split <;> omega

/-- The product of a brightness `m * 2 ^ (-E)` in `[0, 1]` by 31, rounded: a
finite number `m1 * 2 ^ (-a)` that lies on the same side of every integer `K`
as the exact product does. -/
theorem round_mul_31 (neg : Bool) (m E : Nat) (hm : m ≤ 2 ^ E) (hE : E ≤ 1074) :
    ∃ m1 a : Nat, round neg (m * 31) (-(E : Int) + 0) = fin neg m1 (-(a : Int))
      ∧ (∀ K, m * 31 ≤ K * 2 ^ E → m1 ≤ K * 2 ^ a)
      ∧ (∀ K, K * 2 ^ E ≤ m * 31 → K * 2 ^ a ≤ m1) := by
  have hM : m * 31 ≤ 31 * 2 ^ E := by nlinarith
  have hMlt : m * 31 < 2 ^ (E + 5) := by
    have : (2 : Nat) ^ (E + 5) = 32 * 2 ^ E := by rw [pow_add]; ring
    have hpos : 0 < 2 ^ E := Nat.pos_pow_of_pos E (by norm_num)
    omega
  have hbl : bitLength (m * 31) ≤ E + 5 := (bitLength_le_iff _ _).2 hMlt
  obtain ⟨d, hd⟩ : ∃ d, d = bitLength (m * 31) - 53 := ⟨_, rfl⟩
  have hdE : d ≤ E := by omega
  have hdrop : max (bitLength (m * 31) - 53) (-1074 - (-(E : Int) + 0)).toNat = d := by
    have : (-1074 - (-(E : Int) + 0)).toNat = 0 := by omega
    rw [this, ← hd]; simp
  have hK : ∀ K, K * 2 ^ (E - d) * 2 ^ d = K * 2 ^ E := by
    intro K
    rw [Nat.mul_assoc, ← pow_add, Nat.sub_add_cancel hdE]
  have hup : ∀ K, m * 31 ≤ K * 2 ^ E → _ ≤ K * 2 ^ (E - d) :=
    fun K h => rounded_le (m * 31) d (K * 2 ^ (E - d)) (by rw [hK]; exact h)
  have hlo : ∀ K, K * 2 ^ E ≤ m * 31 → K * 2 ^ (E - d) ≤ _ :=
    fun K h => rounded_ge (m * 31) d (K * 2 ^ (E - d)) (by rw [hK]; exact h)
  have hq : m * 31 / 2 ^ d < 2 ^ 53 := by
    apply Nat.div_lt_of_lt_mul
    have hlt : m * 31 < 2 ^ (d + 53) := (bitLength_le_iff _ _).1 (by omega)
    rwa [pow_add] at hlt
  unfold round
  simp only [hdrop]
  generalize hm1 : (if (decide (2 ^ d < 2 * (m * 31 % 2 ^ d))
        || (decide (2 * (m * 31 % 2 ^ d) = 2 ^ d) && decide (m * 31 / 2 ^ d % 2 = 1))) = true
      then m * 31 / 2 ^ d + 1 else m * 31 / 2 ^ d) = m1 at hup hlo
  have hm1le : m1 ≤ 2 ^ 53 := by
    rw [← hm1]; split <;> omega
  have hblm1 : bitLength m1 ≤ 54 := (bitLength_le_iff _ _).2 (by
    have : (2:Nat) ^ 54 = 2 * 2 ^ 53 := by norm_num
    omega)
  have he1 : (-(E : Int) + 0 + (d : Int)) = -((E - d : Nat) : Int) := by omega
  rw [he1]
  have hc1 : ¬ (1024 < (bitLength m1 : Int) + -((E - d : Nat) : Int)) := by omega
  have hc2 : ¬ (971 < -((E - d : Nat) : Int)) := by omega
  simp only [hc1, hc2, if_false]
  by_cases h53 : m1 = 2 ^ 53
  · simp only [h53, if_true]
    have hpos : 1 ≤ E - d := by
      by_contra hcon
      have h0 : E - d = 0 := by omega
      have h31 := hup 31 hM
      rw [h0, h53] at h31
      norm_num at h31
    have hsplit : (2:Nat) ^ (E - d) = 2 * 2 ^ (E - d - 1) := by
      rw [← pow_succ']; congr 1; omega
    have h2 : (2:Nat) ^ 53 = 2 * 2 ^ 52 := by norm_num
    refine ⟨2 ^ 52, E - d - 1, ?_, ?_, ?_⟩
    · congr 1; omega
    · intro K hKle
      have := hup K hKle
      rw [h53, hsplit, ← Nat.mul_assoc, Nat.mul_comm K 2, Nat.mul_assoc] at this
      omega
    · intro K hKle
      have := hlo K hKle
      rw [h53, hsplit, ← Nat.mul_assoc, Nat.mul_comm K 2, Nat.mul_assoc] at this
      omega
  · simp only [h53, if_false]
    exact ⟨m1, E - d, rfl, hup, hlo⟩

theorem round_zero (neg : Bool) (e : Int) (h0 : -1074 ≤ e) (h1 : e ≤ 971) :
    round neg (0 * 31) (e + 0) = fin neg 0 e := by
  have hdrop : (-1074 - (e + 0)).toNat = 0 := by omega
  have hbl : bitLength 0 = 0 := rfl
  have hc1 : ¬ (1024 < ((0 : Nat) : Int) + e) := by omega
  have hc2 : ¬ (971 < e) := by omega
  unfold round
  simp only [Nat.zero_mul, hbl, hdrop]
  simp
  rw [hbl]
  simp [hc2]
  omega

end F64

/-- A datum in the range `[0.0, 1.0]` of `inRangeFloat` is finite, and either
a zero or `m * 2 ^ (-E)` with `m ≤ 2 ^ E`. -/
theorem inRange_cases (v : F64) (h : inRangeFloat minBrightness v maxBrightness = true) :
    ∃ neg m e, v = F64.fin neg m e
      ∧ (m = 0 ∨ (neg = false ∧ ∃ E : Nat, e = -(E : Int) ∧ m ≤ 2 ^ E)) := by
  cases v with
  | nan => simp [inRangeFloat, F64.ge, F64.le] at h
  | inf neg => cases neg <;> simp [inRangeFloat, F64.ge, F64.le, minBrightness, maxBrightness, F64.ofNat] at h
  | fin neg m e =>
    refine ⟨neg, m, e, rfl, ?_⟩
    simp only [inRangeFloat, F64.ge, F64.le, minBrightness, maxBrightness, F64.ofNat,
      Bool.and_eq_true, decide_eq_true_eq, F64.scaled] at h
    obtain ⟨hge, hle⟩ := h
    by_cases hm : m = 0
    · exact Or.inl hm
    · right
      have hmpos : (0 : Int) < m := by exact_mod_cast Nat.pos_of_ne_zero hm
      have hpow : ∀ k : Nat, (0 : Int) < 2 ^ k := fun k => by positivity
      cases neg with
      | true =>
        exfalso
        simp only [if_true, Bool.false_eq_true, if_false] at hge
        have := mul_pos hmpos (hpow (e - 0 ⊓ e).toNat)
        simp at hge
        omega
      | false =>
        refine ⟨rfl, (-e).toNat, ?_⟩
        simp only [Bool.false_eq_true, if_false, one_mul, Nat.cast_one] at hle
        by_cases he : e ≤ 0
        · have h1 : e ⊓ 0 = e := min_eq_left he
          rw [h1] at hle
          simp only [sub_self, Int.toNat_zero, pow_zero, mul_one, zero_sub] at hle
          refine ⟨by omega, ?_⟩
          exact_mod_cast hle
        · exfalso
          have h1 : e ⊓ 0 = 0 := min_eq_right (by omega)
          rw [h1] at hle
          simp only [sub_zero, Int.toNat_zero, pow_zero] at hle
          obtain ⟨k, hk⟩ : ∃ k : Nat, e.toNat = k + 1 := ⟨e.toNat - 1, by omega⟩
          rw [hk, pow_succ] at hle
          have := hpow k
          nlinarith

/-- Truncation of a small non-negative product `m1 * 2 ^ (-a)`: the
conversion to `int` is defined and is the floor of the value. -/
theorem toInt_small (m1 a : Nat) (h : m1 ≤ 31 * 2 ^ a) :
    (F64.fin false m1 (-(a : Int))).toInt = some ((m1 / 2 ^ a : Nat) : Int)
      ∧ ((m1 / 2 ^ a : Nat) : Int) = ⌊(F64.fin false m1 (-(a : Int))).toRat⌋ := by
  have hpos : 0 < 2 ^ a := Nat.pos_pow_of_pos a (by norm_num)
  have hdiv : m1 / 2 ^ a ≤ 31 := by
    apply Nat.div_le_of_le_mul
    rw [Nat.mul_comm]; exact h
  have hfloor : ⌊((m1 : ℚ) * 2 ^ (-(a : Int)))⌋ = ((m1 / 2 ^ a : Nat) : Int) := by
    rw [zpow_neg, zpow_natCast, ← div_eq_mul_inv]
    have := Rat.floor_natCast_div_natCast m1 (2 ^ a)
    push_cast at this
    rw [this]
    norm_cast
  have ha : (if (0 : Int) ≤ -(a : Int) then (m1 : Int) * 2 ^ (-(a : Int)).toNat
      else (m1 : Int) / 2 ^ (-(-(a : Int))).toNat) = ((m1 / 2 ^ a : Nat) : Int) := by
    split
    · have : a = 0 := by omega
      subst this
      simp
    · have : (-(-(a : Int))).toNat = a := by omega
      rw [this]
      norm_cast
  constructor
  · simp only [F64.toInt, Bool.false_eq_true, if_false]
    rw [ha, if_pos]
    have h0 : (0 : Int) ≤ ((m1 / 2 ^ a : Nat) : Int) := Int.ofNat_nonneg _
    have h1 : ((m1 / 2 ^ a : Nat) : Int) ≤ 31 := by exact_mod_cast hdiv
    constructor <;> linarith
  · unfold F64.toRat
    simp only [Bool.false_eq_true, if_false, one_mul]
    exact hfloor.symm

/-- `convertBrightnessToInt` on the range `[0.0, 1.0]`: it returns the floor
of the `float64` product `brightness * 31.0`, a number between 0 and 31 that
is the floor or the ceiling of the exact product. -/
theorem convertBrightnessToInt_inRange (v : F64) (hv : v.Valid)
    (h : inRangeFloat minBrightness v maxBrightness = true) :
    ∃ n : Int, convertBrightnessToInt v = .ok n
      ∧ n = ⌊(F64.mul v (F64.ofNat 31)).toRat⌋ ∧ 0 ≤ n ∧ n ≤ 31
      ∧ ⌊v.toRat * 31⌋ ≤ n ∧ n ≤ ⌈v.toRat * 31⌉ := by
  obtain ⟨neg, m, e, rfl, hcase⟩ := inRange_cases v h
  obtain ⟨_, he0, he1⟩ := hv
  have hmul : F64.mul (F64.fin neg m e) (F64.ofNat 31) = F64.round neg (m * 31) (e + 0) := by
    simp [F64.mul, F64.ofNat]
  rcases hcase with hm0 | ⟨hneg, E, hE, hmE⟩
  · subst hm0
    have hprod := hmul.trans (F64.round_zero neg e he0 he1)
    refine ⟨0, ?_, ?_, le_refl _, by norm_num, ?_, ?_⟩
    · unfold convertBrightnessToInt
      simp [h, hprod, F64.toInt]
    · simp [hprod, F64.toRat]
    · simp [F64.toRat]
    · simp [F64.toRat]
  · subst hneg hE
    obtain ⟨m1, a, h1, hup, hlo⟩ := F64.round_mul_31 false m E hmE (by omega)
    have hprod := hmul.trans h1
    have hle : m1 ≤ 31 * 2 ^ a := hup 31 (by nlinarith)
    obtain ⟨hn, hfl⟩ := toInt_small m1 a hle
    have hposE : (0 : ℚ) < 2 ^ E := by positivity
    have hposa : 0 < 2 ^ a := Nat.pos_pow_of_pos a (by norm_num)
    have hx : (F64.fin false m (-(E : Int))).toRat * 31 = ((m * 31 : Nat) : ℚ) / ((2 ^ E : Nat) : ℚ) := by
      unfold F64.toRat
      simp only [Bool.false_eq_true, if_false, one_mul, zpow_neg, zpow_natCast]
      push_cast
      field_simp
    have hdiv31 : m1 / 2 ^ a ≤ 31 := by
      apply Nat.div_le_of_le_mul
      rw [Nat.mul_comm]; exact hle
    refine ⟨((m1 / 2 ^ a : Nat) : Int), ?_, ?_, by positivity, by exact_mod_cast hdiv31, ?_, ?_⟩
    · unfold convertBrightnessToInt
      simp [h, hprod, hn]
    · rw [hprod]; exact hfl
    · rw [hx, Rat.floor_natCast_div_natCast]
      have hF := hlo (m * 31 / 2 ^ E) (Nat.div_mul_le_self _ _)
      have : m * 31 / 2 ^ E ≤ m1 / 2 ^ a := (Nat.le_div_iff_mul_le hposa).2 hF
      exact_mod_cast this
    · rw [hx]
      have hposE' : 0 < 2 ^ E := Nat.pos_pow_of_pos E (by norm_num)
      -- the ceiling of the exact product is a natural number `K` with `m * 31 ≤ K * 2 ^ E`
      obtain ⟨K, hK⟩ : ∃ K : Nat, ⌈((m * 31 : Nat) : ℚ) / ((2 ^ E : Nat) : ℚ)⌉ = (K : Int) :=
        ⟨_, (Int.toNat_of_nonneg (Int.ceil_nonneg (by positivity))).symm⟩
      rw [hK]
      have hle1 : ((m * 31 : Nat) : ℚ) / ((2 ^ E : Nat) : ℚ) ≤ (K : ℚ) := by
        have := Int.le_ceil (((m * 31 : Nat) : ℚ) / ((2 ^ E : Nat) : ℚ))
        rw [hK] at this
        exact_mod_cast this
      have hKE : m * 31 ≤ K * 2 ^ E := by
        rw [div_le_iff₀ (by exact_mod_cast hposE')] at hle1
        exact_mod_cast hle1
      have := hup K hKE
      have : m1 / 2 ^ a ≤ K := by
        apply Nat.div_le_of_le_mul
        rw [Nat.mul_comm]; exact this
      exact_mod_cast this

/-! ## The setters -/

theorem index_apply (p : Int) (w : World) :
    index p w = if h : 0 ≤ p ∧ p < 8 then ⟨.ok ⟨p.toNat, by omega⟩, w⟩
      else ⟨.error .indexOutOfRange, w⟩ := rfl

theorem index_fin (i : Fin 8) (w : World) : index ((i : Nat) : Int) w = ⟨.ok i, w⟩ := by
  have h : 0 ≤ ((i : Nat) : Int) ∧ ((i : Nat) : Int) < 8 := by
    have := i.isLt
    omega
  rw [index_apply, dif_pos h]
  simp

theorem assignPixel_fin (i : Fin 8) (f : Pixel → Pixel) (w : World) :
    assignPixel ((i : Nat) : Int) f w
      = ⟨.ok (), ⟨⟨Function.update w.bl.pixels i (f (w.bl.pixels i)), w.bl.previousPixels⟩,
          w.wire⟩⟩ := by
  unfold assignPixel
  rw [Op.bind_of_ok (index_fin i w)]
  rfl

theorem assignPixel_out (p : Int) (f : Pixel → Pixel) (w : World) (h : ¬ (0 ≤ p ∧ p < 8)) :
    assignPixel p f w = ⟨.error .indexOutOfRange, w⟩ := by
  unfold assignPixel
  have : index p w = ⟨.error .indexOutOfRange, w⟩ := by rw [index_apply, dif_neg h]
  rw [Op.bind_of_error this]

/-- What `SetPixel` does at an index of the array. -/
theorem SetPixel_fin (i : Fin 8) (r g b : Int) (w : World) :
    SetPixel ((i : Nat) : Int) r g b w
      = ⟨.ok (), ⟨⟨Function.update w.bl.pixels i ⟨r, g, b, (w.bl.pixels i).Brightness⟩,
          w.bl.previousPixels⟩, w.wire⟩⟩ := by
  unfold SetPixel
  rw [Op.bind_of_ok (assignPixel_fin i _ w), Op.bind_of_ok (assignPixel_fin i _ _),
    assignPixel_fin]
  simp

/-- What `SetPixel` does outside the array: the index panic, nothing changed. -/
theorem SetPixel_out (p r g b : Int) (w : World) (h : ¬ (0 ≤ p ∧ p < 8)) :
    SetPixel p r g b w = ⟨.error .indexOutOfRange, w⟩ := by
  unfold SetPixel
  rw [Op.bind_of_error (assignPixel_out p _ w h)]

/-- A loop that assigns to the pixel of each index of `xs` in turn. -/
theorem forEach_assign (g : Pixel → Pixel) (body : Fin 8 → Op Unit)
    (hbody : ∀ i w, body i w
      = ⟨.ok (), ⟨⟨Function.update w.bl.pixels i (g (w.bl.pixels i)), w.bl.previousPixels⟩,
          w.wire⟩⟩)
    (xs : List (Fin 8)) (hnd : xs.Nodup) (w : World) :
    Op.forEach xs body w
      = ⟨.ok (), ⟨⟨fun i => if i ∈ xs then g (w.bl.pixels i) else w.bl.pixels i,
          w.bl.previousPixels⟩, w.wire⟩⟩ := by
  induction xs generalizing w with
  | nil => simp [Op.forEach_nil]
  | cons j rest ih =>
    rw [Op.forEach_cons, Op.bind_of_ok (hbody j w), ih (List.nodup_cons.1 hnd).2]
    have hj : j ∉ rest := (List.nodup_cons.1 hnd).1
    congr 3
    funext i
    by_cases hij : i = j
    · subst hij; simp [hj]
    · simp [hij, Function.update_noteq hij]

/-- What `SetAll` does: it always returns, every pixel gets the colour and
keeps its brightness; the previous array and the wire are as before. -/
theorem SetAll_apply (r g b : Int) (w : World) :
    SetAll r g b w = ⟨.ok (), ⟨⟨fun i => ⟨r, g, b, (w.bl.pixels i).Brightness⟩,
      w.bl.previousPixels⟩, w.wire⟩⟩ := by
  unfold SetAll
  rw [forEach_assign (fun px => ⟨r, g, b, px.Brightness⟩) _ (fun i w => SetPixel_fin i r g b w)
    _ (List.nodup_finRange 8)]
  simp

theorem Clear_apply (w : World) :
    Clear w = ⟨.ok (), ⟨⟨fun i => ⟨0, 0, 0, (w.bl.pixels i).Brightness⟩,
      w.bl.previousPixels⟩, w.wire⟩⟩ := SetAll_apply 0 0 0 w

theorem SetBrightness_ok (v : F64) (n : Int) (hn : convertBrightnessToInt v = .ok n)
    (w : World) :
    SetBrightness v w = ⟨.ok (), ⟨⟨fun i => { w.bl.pixels i with Brightness := n },
      w.bl.previousPixels⟩, w.wire⟩⟩ := by
  unfold SetBrightness
  rw [hn]
  have h1 : Op.ofExcept (Except.ok n) w = ⟨.ok n, w⟩ := rfl
  rw [Op.bind_of_ok h1, forEach_assign (fun px => { px with Brightness := n }) _
    (fun i w => assignPixel_fin i _ w) _ (List.nodup_finRange 8)]
  simp

theorem SetBrightness_error (v : F64) (e : Fault) (he : convertBrightnessToInt v = .error e)
    (w : World) : SetBrightness v w = ⟨.error e, w⟩ := by
  unfold SetBrightness
  rw [he]
  have h1 : (Op.ofExcept (Except.error e) : Op Int) w = ⟨.error e, w⟩ := rfl
  rw [Op.bind_of_error h1]

theorem SetPixelBrightness_ok (i : Fin 8) (v : F64) (n : Int)
    (hn : convertBrightnessToInt v = .ok n) (w : World) :
    SetPixelBrightness ((i : Nat) : Int) v w
      = ⟨.ok (), ⟨⟨Function.update w.bl.pixels i { w.bl.pixels i with Brightness := n },
          w.bl.previousPixels⟩, w.wire⟩⟩ := by
  unfold SetPixelBrightness
  rw [hn]
  have h1 : Op.ofExcept (Except.ok n) w = ⟨.ok n, w⟩ := rfl
  rw [Op.bind_of_ok h1, assignPixel_fin]

theorem SetPixelBrightness_out (p : Int) (v : F64) (n : Int)
    (hn : convertBrightnessToInt v = .ok n) (w : World) (h : ¬ (0 ≤ p ∧ p < 8)) :
    SetPixelBrightness p v w = ⟨.error .indexOutOfRange, w⟩ := by
  unfold SetPixelBrightness
  rw [hn]
  have h1 : Op.ofExcept (Except.ok n) w = ⟨.ok n, w⟩ := rfl
  rw [Op.bind_of_ok h1, assignPixel_out p _ w h]

theorem SetPixelBrightness_error (p : Int) (v : F64) (e : Fault)
    (he : convertBrightnessToInt v = .error e) (w : World) :
    SetPixelBrightness p v w = ⟨.error e, w⟩ := by
  unfold SetPixelBrightness
  rw [he]
  have h1 : (Op.ofExcept (Except.error e) : Op Int) w = ⟨.error e, w⟩ := rfl
  rw [Op.bind_of_error h1]

theorem initPixels_eq (b : Int) : initPixels b = uniformPixels b := by
  funext i
  unfold initPixels uniformPixels
  fin_cases i <;> simp [List.finRange, List.foldl, zeroPixels]

/-! ## The range check -/

namespace F64

theorem scaled_cast (neg : Bool) (m : Nat) (e k : Int) (hk : k ≤ e) :
    ((scaled neg m e k : Int) : ℚ) = (fin neg m e).toRat * 2 ^ (-k) := by
  unfold scaled toRat
  have h2 : ((2 : ℚ) ^ (e - k).toNat) = 2 ^ e * 2 ^ (-k) := by
    rw [← zpow_natCast, Int.toNat_of_nonneg (by omega), ← zpow_add₀ (by norm_num : (2 : ℚ) ≠ 0)]
    congr 1
  push_cast
  rw [h2]
  cases neg <;> simp <;> ring

/-- The comparison `<=` of two finite data is the order of the numbers they
stand for. -/
theorem le_fin_iff (s : Bool) (m : Nat) (e : Int) (t : Bool) (n : Nat) (k : Int) :
    le (fin s m e) (fin t n k) = true ↔ (fin s m e).toRat ≤ (fin t n k).toRat := by
  simp only [le, decide_eq_true_eq]
  have hpos : (0 : ℚ) < 2 ^ (-(min e k)) := by positivity
  rw [← @Int.cast_le ℚ, scaled_cast s m e _ (min_le_left e k),
    scaled_cast t n k _ (min_le_right e k)]
  exact mul_le_mul_right hpos

end F64

/-- The range check of `convertBrightnessToInt` passes exactly for the finite
data whose value lies between 0 and 1. -/
theorem inRangeFloat_iff (v : F64) :
    inRangeFloat minBrightness v maxBrightness = true ↔
      (∃ neg m e, v = F64.fin neg m e) ∧ 0 ≤ v.toRat ∧ v.toRat ≤ 1 := by
  have h0 : (F64.ofNat 0).toRat = 0 := by simp [F64.ofNat, F64.toRat]
  have h1 : (F64.ofNat 1).toRat = 1 := by simp [F64.ofNat, F64.toRat]
  cases v with
  | nan => simp [inRangeFloat, F64.ge, F64.le]
  | inf neg => cases neg <;> simp [inRangeFloat, F64.ge, F64.le, minBrightness, maxBrightness, F64.ofNat]
  | fin neg m e =>
    unfold inRangeFloat F64.ge minBrightness maxBrightness
    rw [Bool.and_eq_true]
    unfold F64.ofNat
    rw [F64.le_fin_iff, F64.le_fin_iff]
    unfold F64.ofNat at h0 h1
    rw [h0, h1]
    simp

/-! ## Fresh strips and setter calls -/

theorem pixelsChanged_eq_true_iff (bl : Blinkt) :
    pixelsChanged bl (List.finRange 8) = true ↔ bl.pixels ≠ bl.previousPixels := by
  rw [← Bool.not_eq_false, Ne, ← pixelsChanged_finRange]

theorem uniformPixels_ne_zero (b : Int) : uniformPixels b ≠ zeroPixels ↔ b ≠ 0 := by
  constructor
  · intro h hb
    subst hb
    exact h rfl
  · intro hb h
    have := congrFun h 0
    simp [uniformPixels, zeroPixels] at this
    exact hb this

theorem NewBlinkt_nil : NewBlinkt [] = .ok ⟨uniformPixels 15, zeroPixels⟩ := by
  show Except.ok _ = _
  rw [initPixels_eq]
  rfl

theorem NewBlinkt_cons_ok (v : F64) (rest : List F64) (n : Int)
    (h : convertBrightnessToInt v = .ok n) :
    NewBlinkt (v :: rest) = .ok ⟨uniformPixels n, zeroPixels⟩ := by
  unfold NewBlinkt
  simp only [h]
  show Except.ok _ = _
  rw [initPixels_eq]

theorem NewBlinkt_cons_error (v : F64) (rest : List F64) (e : Fault)
    (h : convertBrightnessToInt v = .error e) :
    NewBlinkt (v :: rest) = .error e := by
  unfold NewBlinkt
  simp only [h]
  rfl

theorem convertBrightnessToInt_of_inUnit (v : F64) (hv : v.Valid) (h : v.InUnit) :
    ∃ n : Int, convertBrightnessToInt v = .ok n
      ∧ n = ⌊(F64.mul v (F64.ofNat 31)).toRat⌋ ∧ 0 ≤ n ∧ n ≤ 31
      ∧ ⌊v.toRat * 31⌋ ≤ n ∧ n ≤ ⌈v.toRat * 31⌉ :=
  convertBrightnessToInt_inRange v hv ((inRangeFloat_iff v).2 h)

theorem convertBrightnessToInt_of_not_inUnit (v : F64) (h : ¬ v.InUnit) :
    convertBrightnessToInt v = .error .fatal := by
  have hr : inRangeFloat minBrightness v maxBrightness = false := by
    rw [← Bool.not_eq_true]
    exact fun hc => h ((inRangeFloat_iff v).1 hc)
  unfold convertBrightnessToInt
  simp [hr]

theorem exists_fin_of_inBounds (p : Int) (h : 0 ≤ p ∧ p < 8) :
    ∃ i : Fin 8, ((i : Nat) : Int) = p :=
  ⟨⟨p.toNat, by omega⟩, by simp; omega⟩

/-- No setter call, returning or not, touches the previous snapshot or the
wire. -/
theorem Setter.frame_preserved (c : Setter) (w : World) :
    (c.op w).world.bl.previousPixels = w.bl.previousPixels ∧ (c.op w).world.wire = w.wire := by
  cases c with
  | SetPixel p r g b =>
    by_cases hp : 0 ≤ p ∧ p < 8
    · obtain ⟨i, rfl⟩ := exists_fin_of_inBounds p hp
      simp [Setter.op, SetPixel_fin]
    · simp [Setter.op, SetPixel_out p r g b w hp]
  | SetAll r g b => simp [Setter.op, SetAll_apply]
  | Clear => simp [Setter.op, Clear_apply]
  | SetBrightness v =>
    cases hc : convertBrightnessToInt v with
    | ok n => simp [Setter.op, SetBrightness_ok v n hc]
    | error e => simp [Setter.op, SetBrightness_error v e hc]
  | SetPixelBrightness p v =>
    cases hc : convertBrightnessToInt v with
    | ok n =>
      by_cases hp : 0 ≤ p ∧ p < 8
      · obtain ⟨i, rfl⟩ := exists_fin_of_inBounds p hp
        simp [Setter.op, SetPixelBrightness_ok i v n hc]
      · simp [Setter.op, SetPixelBrightness_out p v n hc w hp]
    | error e => simp [Setter.op, SetPixelBrightness_error p v e hc]

theorem SetPixel_three (r g b : Int) (w : World) :
    SetPixel 3 r g b w
      = ⟨.ok (), ⟨⟨Function.update w.bl.pixels 3 ⟨r, g, b, (w.bl.pixels 3).Brightness⟩,
          w.bl.previousPixels⟩, w.wire⟩⟩ := by
  have h := SetPixel_fin 3 r g b w
  have e : (((3 : Fin 8) : Nat) : Int) = 3 := by decide
  rw [e] at h
  exact h

/-- The `float64` product can round up to the next integer: for the brightness
`0x1.0842108421084p-1` (just below `16/31`) the exact product with 31 is
`16 - 2 ^ (-51)`, whose floor is 15, the `float64` product is `16.0`, and
`convertBrightnessToInt` returns 16. -/
theorem convertBrightnessToInt_rounds_up :
    (F64.fin false ((2 ^ 57 - 4) / 31) (-53)).Valid
      ∧ (F64.fin false ((2 ^ 57 - 4) / 31) (-53)).toRat * 31 = 16 - 2 ^ (-51 : Int)
      ∧ ⌊(F64.fin false ((2 ^ 57 - 4) / 31) (-53)).toRat * 31⌋ = 15
      ∧ F64.mul (F64.fin false ((2 ^ 57 - 4) / 31) (-53)) (F64.ofNat 31) = F64.fin false (2 ^ 52) (-48)
      ∧ convertBrightnessToInt (F64.fin false ((2 ^ 57 - 4) / 31) (-53)) = .ok 16 := by
  refine ⟨by decide, ?_, ?_, by decide, by decide⟩
  · norm_num [F64.toRat]
  · rw [Int.floor_eq_iff]
    norm_num [F64.toRat]

/-- A `Show` on a strip whose arrays differ: one frame is written and the
current array is copied into the previous one. -/
theorem Show_of_changed (w : World) (h : w.bl.pixels ≠ w.bl.previousPixels) :
    Show.run w = ⟨.ok (), ⟨⟨w.bl.pixels, w.bl.pixels⟩, w.wire ++ frameWrites w.bl.pixels⟩⟩ := by
  show Show w = _
  rw [Show_apply, if_neg h]

theorem frameWrites_ne_nil (pixels : Fin 8 → Pixel) : frameWrites pixels ≠ [] := by
  simp [frameWrites]

/-! ## Bits on the data line -/

theorem land_128_cases (x : Int) : Int.land x 128 = 0 ∨ Int.land x 128 = 128 := by
  rw [land_128]
  rcases Int.emod_two_eq_zero_or_one (x / 128) with h | h <;> rw [h] <;> simp

/-- Step `i` of `writeByte val` sends bit `7 - i` of `val`. -/
theorem shifted_bit7 (val : Int) (i : Nat) (hi : i < 8) :
    val * 2 ^ i / 128 % 2 = val / 2 ^ (7 - i) % 2 := by
  interval_cases i <;> norm_num <;> omega

theorem byteWrites_emod (val : Int) : byteWrites (val % 256) = byteWrites val := by
  unfold byteWrites
  apply List.flatMap_congr
  intro i hi
  have hi8 : i < 8 := List.mem_range.1 hi
  rw [shifted_bit7 _ i hi8, shifted_bit7 val i hi8]
  have : val % 256 / 2 ^ (7 - i) % 2 = val / 2 ^ (7 - i) % 2 := by
    interval_cases i <;> norm_num <;> omega
  rw [this]

theorem byteWrites_bits (val : Int) :
    byteWrites val = (List.range 8).flatMap (fun i =>
      [⟨DAT, gpio.Itoa (128 * (val / 2 ^ (7 - i) % 2))⟩, ⟨CLK, "1"⟩, ⟨CLK, "0"⟩]) := by
  unfold byteWrites
  apply List.flatMap_congr
  intro i hi
  rw [shifted_bit7 val i (List.mem_range.1 hi)]

theorem writeByte_apply (val : Int) (w : World) :
    (writeByte val).run w = ⟨.ok (), { w with wire := w.wire ++ byteWrites val }⟩ :=
  writeByte_emits val w

/-- The text of a data write of `writeByte` is `0` or `128`. -/
theorem data_text_cases (x : Int) :
    gpio.Itoa (128 * (x / 128 % 2)) = "0" ∨ gpio.Itoa (128 * (x / 128 % 2)) = "128" := by
  rcases Int.emod_two_eq_zero_or_one (x / 128) with h | h
  · left; rw [h]; decide
  · right; rw [h]; decide

theorem byteWrites_wireText (val : Int) : ∀ x ∈ byteWrites val, WireText x := by
  intro x hx
  unfold byteWrites at hx
  rw [List.mem_flatMap] at hx
  obtain ⟨i, _, hxi⟩ := hx
  simp only [List.mem_cons, List.mem_singleton, List.not_mem_nil, or_false] at hxi
  rcases hxi with rfl | rfl | rfl
  · exact Or.inl ⟨rfl, data_text_cases _⟩
  · exact Or.inr ⟨rfl, Or.inr rfl⟩
  · exact Or.inr ⟨rfl, Or.inl rfl⟩

theorem pulseWrites_wireText (n : Nat) : ∀ x ∈ pulseWrites n, WireText x := by
  intro x hx
  unfold pulseWrites at hx
  rw [List.mem_flatten] at hx
  obtain ⟨l, hl, hxl⟩ := hx
  rw [List.eq_of_mem_replicate hl] at hxl
  simp only [List.mem_cons, List.mem_singleton, List.not_mem_nil, or_false] at hxl
  rcases hxl with rfl | rfl
  · exact Or.inr ⟨rfl, Or.inr rfl⟩
  · exact Or.inr ⟨rfl, Or.inl rfl⟩

theorem frameWrites_wireText (pixels : Fin 8 → Pixel) : ∀ x ∈ frameWrites pixels, WireText x := by
  intro x hx
  have hdat : WireText ⟨DAT, "0"⟩ := Or.inl ⟨rfl, Or.inl rfl⟩
  unfold frameWrites at hx
  simp only [List.mem_append, List.mem_cons, List.mem_flatMap, pixelWrites] at hx
  rcases hx with ((rfl | h) | ⟨p, _, h⟩) | rfl | h
  · exact hdat
  · exact pulseWrites_wireText _ x h
  · rcases h with ((h | h) | h) | h <;> exact byteWrites_wireText _ x h
  · exact hdat
  · exact pulseWrites_wireText _ x h

/-! ## The brightness of reachable strips -/

theorem convertBrightnessToInt_ok_range (v : F64) (hv : v.Valid) (n : Int)
    (h : convertBrightnessToInt v = .ok n) : 0 ≤ n ∧ n ≤ 31 := by
  by_cases hr : inRangeFloat minBrightness v maxBrightness = true
  · obtain ⟨m, hm, _, h0, h31, _⟩ := convertBrightnessToInt_inRange v hv hr
    rw [hm] at h
    cases h
    exact ⟨h0, h31⟩
  · exfalso
    unfold convertBrightnessToInt at h
    simp [hr] at h

theorem Setter.brightnessOk (c : Setter) (hc : c.ArgsValid) (w w1 : World)
    (hw : BrightnessOk w.bl) (hrun : c.op w = ⟨.ok (), w1⟩) : BrightnessOk w1.bl := by
  cases c with
  | SetPixel p r g b =>
    by_cases hp : 0 ≤ p ∧ p < 8
    · obtain ⟨i, rfl⟩ := exists_fin_of_inBounds p hp
      simp only [Setter.op, SetPixel_fin] at hrun
      cases hrun
      intro j
      by_cases hj : j = i
      · subst hj; simpa using hw j
      · simpa [Function.update_noteq hj] using hw j
    · simp [Setter.op, SetPixel_out p r g b w hp] at hrun
  | SetAll r g b =>
    simp only [Setter.op, SetAll_apply] at hrun
    cases hrun
    exact fun j => hw j
  | Clear =>
    simp only [Setter.op, Clear_apply] at hrun
    cases hrun
    exact fun j => hw j
  | SetBrightness v =>
    cases hcv : convertBrightnessToInt v with
    | ok n =>
      simp only [Setter.op, SetBrightness_ok v n hcv] at hrun
      cases hrun
      exact fun _ => convertBrightnessToInt_ok_range v hc n hcv
    | error e => simp [Setter.op, SetBrightness_error v e hcv] at hrun
  | SetPixelBrightness p v =>
    cases hcv : convertBrightnessToInt v with
    | ok n =>
      by_cases hp : 0 ≤ p ∧ p < 8
      · obtain ⟨i, rfl⟩ := exists_fin_of_inBounds p hp
        simp only [Setter.op, SetPixelBrightness_ok i v n hcv] at hrun
        cases hrun
        intro j
        by_cases hj : j = i
        · subst hj
          simpa using convertBrightnessToInt_ok_range v hc n hcv
        · simpa [Function.update_noteq hj] using hw j
      · simp [Setter.op, SetPixelBrightness_out p v n hcv w hp] at hrun
    | error e => simp [Setter.op, SetPixelBrightness_error p v e hcv] at hrun

theorem Show_pixels (w : World) : (Show w).res = .ok () ∧ (Show w).world.bl.pixels = w.bl.pixels := by
  rw [Show_apply]
  split <;> exact ⟨rfl, rfl⟩

theorem Call.keeps_brightness (c : Call) (hc : c.ArgsValid) (w w1 : World)
    (hw : BrightnessOk w.bl) (hrun : c.op w = ⟨.ok (), w1⟩) : BrightnessOk w1.bl := by
  cases c with
  | setter s => exact Setter.brightnessOk s hc w w1 hw hrun
  | Show =>
    have h := (Show_pixels w).2
    have hrun' : sysfs.Show w = ⟨.ok (), w1⟩ := hrun
    rw [hrun'] at h
    intro i
    have := hw i
    rw [← h] at this
    exact this

theorem runCalls_brightnessOk (cs : List Call) (hcs : ∀ c ∈ cs, c.ArgsValid) :
    ∀ (w w1 : World), BrightnessOk w.bl → runCalls cs w = ⟨.ok (), w1⟩ → BrightnessOk w1.bl := by
  induction cs with
  | nil =>
    intro w w1 hw hrun
    have : runCalls [] w = ⟨.ok (), w⟩ := rfl
    rw [this] at hrun
    cases hrun
    exact hw
  | cons c rest ih =>
    intro w w1 hw hrun
    have hstep : runCalls (c :: rest) w = (c.op >>= fun _ => runCalls rest) w := rfl
    rw [hstep, Op.bind_apply] at hrun
    cases hc : c.op w with
    | mk res w2 =>
      cases res with
      | error e =>
        rw [hc] at hrun
        simp at hrun
      | ok u =>
        rw [hc] at hrun
        exact ih (fun c' hc' => hcs c' (List.mem_cons_of_mem _ hc')) w2 w1
          (Call.keeps_brightness c (hcs c (List.mem_cons_self _ _)) w w2 hw hc) hrun

theorem NewBlinkt_brightnessOk (args : List F64) (hargs : ∀ v ∈ args, v.Valid) (bl : Blinkt)
    (h : NewBlinkt args = .ok bl) : BrightnessOk bl := by
  cases args with
  | nil =>
    rw [NewBlinkt_nil] at h
    cases h
    intro i
    simp [uniformPixels]
  | cons v rest =>
    cases hcv : convertBrightnessToInt v with
    | ok n =>
      rw [NewBlinkt_cons_ok v rest n hcv] at h
      cases h
      exact fun _ => convertBrightnessToInt_ok_range v (hargs v (List.mem_cons_self _ _)) n hcv
    | error e =>
      rw [NewBlinkt_cons_error v rest e hcv] at h
      cases h

/-- The first byte of a pixel word with a brightness in `[0, 31]`. -/
theorem first_byte (b : Int) (h0 : 0 ≤ b) (h31 : b ≤ 31) :
    224 ≤ Int.lor PIXEL_START b ∧ Int.lor PIXEL_START b ≤ 255
      ∧ Int.lor PIXEL_START b / 32 = 7 ∧ Int.lor PIXEL_START b % 32 = b := by
  obtain ⟨n, rfl⟩ := Int.eq_ofNat_of_zero_le h0
  have hn : n ≤ 31 := by omega
  rw [lor_pixel_start _ h0]
  simp only [Int.toNat_ofNat]
  have key : 0xE0 ||| n = 224 + n := by
    interval_cases n <;> rfl
  rw [key]
  push_cast
  omega

/-! ## The shape of a frame -/

theorem stepWrites_append (a b : List String) :
    stepWrites (a ++ b) = stepWrites a ++ stepWrites b := by
  unfold stepWrites
  exact List.flatMap_append _ _ _

theorem stepWrites_cons (t : String) (ts : List String) :
    stepWrites (t :: ts) = ⟨DAT, t⟩ :: ⟨CLK, "1"⟩ :: ⟨CLK, "0"⟩ :: stepWrites ts := rfl

theorem byteWrites_steps (val : Int) : byteWrites val = stepWrites (byteTexts val) := by
  unfold byteWrites stepWrites byteTexts
  rw [List.flatMap_map]

theorem pixelWrites_steps (px : Pixel) :
    pixelWrites px = stepWrites (byteTexts (Int.lor PIXEL_START px.Brightness)
      ++ byteTexts px.B ++ byteTexts px.G ++ byteTexts px.R) := by
  unfold pixelWrites
  simp only [byteWrites_steps, stepWrites_append]

theorem flatMap_stepWrites {ι : Type} (xs : List ι) (f : ι → List String) :
    xs.flatMap (fun i => stepWrites (f i)) = stepWrites (xs.flatMap f) := by
  induction xs with
  | nil => rfl
  | cons x rest ih => simp only [List.flatMap_cons, ih, stepWrites_append]

/-- A frame is the start marker, one bit step for each of its data texts,
and the end marker. -/
theorem frameWrites_steps (pixels : Fin 8 → Pixel) :
    frameWrites pixels = (⟨DAT, "0"⟩ :: pulseWrites 32) ++ stepWrites (frameTexts pixels)
      ++ (⟨DAT, "0"⟩ :: pulseWrites 36) := by
  unfold frameWrites frameTexts
  simp only [pixelWrites_steps, flatMap_stepWrites]

theorem byteTexts_length (val : Int) : (byteTexts val).length = 8 := by
  simp [byteTexts]

theorem flatMap_length_const {ι α : Type} (xs : List ι) (f : ι → List α) (n : Nat)
    (h : ∀ i, (f i).length = n) : (xs.flatMap f).length = xs.length * n := by
  induction xs with
  | nil => simp
  | cons x rest ih =>
    simp only [List.flatMap_cons, List.length_append, h, ih, List.length_cons]
    ring

theorem frameTexts_length (pixels : Fin 8 → Pixel) : (frameTexts pixels).length = 256 := by
  unfold frameTexts
  rw [flatMap_length_const _ _ 32 (fun i => by simp [byteTexts_length])]
  simp

theorem pulseWrites_succ (n : Nat) :
    pulseWrites (n + 1) = ⟨CLK, "1"⟩ :: ⟨CLK, "0"⟩ :: pulseWrites n := by
  simp [pulseWrites, List.replicate_succ]

/-! ## The clock -/

namespace Spec

theorem clockLevels_append (a b : List gpio.LineWrite) :
    clockLevels (a ++ b) = clockLevels a ++ clockLevels b := by
  simp [clockLevels]

theorem clockLevels_data (t : String) (rest : List gpio.LineWrite) :
    clockLevels (⟨DAT, t⟩ :: rest) = clockLevels rest := by
  have h : ¬ (DAT = CLK) := by decide
  simp [clockLevels, h]

theorem clockLevels_pulses (n : Nat) :
    clockLevels (pulseWrites n) = (List.replicate n [Level.high, Level.low]).flatten := by
  induction n with
  | zero => rfl
  | succ n ih =>
    rw [pulseWrites_succ, List.replicate_succ, List.flatten_cons, ← ih]
    simp [clockLevels, gpio.level]

theorem clockLevels_steps (ts : List String) :
    clockLevels (stepWrites ts) = (List.replicate ts.length [Level.high, Level.low]).flatten := by
  induction ts with
  | nil => rfl
  | cons t ts ih =>
    rw [stepWrites_cons, clockLevels_data, List.length_cons, List.replicate_succ,
      List.flatten_cons, ← ih]
    simp [clockLevels, gpio.level]

theorem flatten_replicate_add {α : Type} (m n : Nat) (l : List α) :
    (List.replicate m l).flatten ++ (List.replicate n l).flatten
      = (List.replicate (m + n) l).flatten := by
  rw [List.replicate_add, List.flatten_append]

theorem count_high_pulses (n : Nat) :
    ((List.replicate n [Level.high, Level.low]).flatten).count Level.high = n := by
  induction n with
  | zero => rfl
  | succ n ih =>
    rw [List.replicate_succ, List.flatten_cons, List.count_append, ih]
    simp [List.count_cons]
    omega

theorem dataWhileClockLow_data (clk : Level) (t : String) (rest : List gpio.LineWrite) :
    dataWhileClockLow clk (⟨DAT, t⟩ :: rest)
      = (decide (clk = .low) && dataWhileClockLow clk rest) := by
  have h : ¬ (DAT = CLK) := by decide
  simp [dataWhileClockLow, h]

theorem dataWhileClockLow_pulse (clk : Level) (rest : List gpio.LineWrite) :
    dataWhileClockLow clk (⟨CLK, "1"⟩ :: ⟨CLK, "0"⟩ :: rest) = dataWhileClockLow .low rest := by
  simp [dataWhileClockLow, gpio.level]

theorem dataWhileClockLow_pulses (n : Nat) (rest : List gpio.LineWrite) :
    dataWhileClockLow .low (pulseWrites n ++ rest) = dataWhileClockLow .low rest := by
  induction n with
  | zero => rfl
  | succ n ih =>
    rw [pulseWrites_succ, List.cons_append, List.cons_append, dataWhileClockLow_pulse, ih]

theorem dataWhileClockLow_steps (ts : List String) (rest : List gpio.LineWrite) :
    dataWhileClockLow .low (stepWrites ts ++ rest) = dataWhileClockLow .low rest := by
  induction ts with
  | nil => rfl
  | cons t ts ih =>
    rw [stepWrites_cons, List.cons_append, List.cons_append, List.cons_append,
      dataWhileClockLow_data, dataWhileClockLow_pulse, ih]
    simp

/-- The clock during a frame: 324 pulses, and the data line is written only
while the clock is low. -/
theorem frame_clock (pixels : Fin 8 → Pixel) :
    clockLevels (frameWrites pixels) = (List.replicate 324 [Level.high, Level.low]).flatten
      ∧ dataWhileClockLow .low (frameWrites pixels) = true := by
  rw [frameWrites_steps]
  constructor
  · rw [clockLevels_append, clockLevels_append, clockLevels_data, clockLevels_data,
      clockLevels_pulses, clockLevels_pulses, clockLevels_steps, frameTexts_length,
      flatten_replicate_add, flatten_replicate_add]
  · rw [List.append_assoc, List.cons_append, dataWhileClockLow_data, dataWhileClockLow_pulses,
      dataWhileClockLow_steps, dataWhileClockLow_data]
    have h := dataWhileClockLow_pulses 36 []
    rw [List.append_nil] at h
    rw [h]
    rfl

end Spec

/-! ## Decoding a frame -/

namespace Spec

theorem samples_data (d : Level) (t : String) (rest : List gpio.LineWrite) :
    samples d (⟨DAT, t⟩ :: rest) = samples (gpio.level t) rest := by
  simp [samples]

theorem samples_pulse (d : Level) (rest : List gpio.LineWrite) :
    samples d (⟨CLK, "1"⟩ :: ⟨CLK, "0"⟩ :: rest) = d :: samples d rest := by
  have h : ¬ (CLK = DAT) := by decide
  simp [samples, h, gpio.level]

theorem samples_pulses (d : Level) (n : Nat) (rest : List gpio.LineWrite) :
    samples d (pulseWrites n ++ rest) = List.replicate n d ++ samples d rest := by
  induction n with
  | zero => rfl
  | succ n ih =>
    rw [pulseWrites_succ, List.cons_append, List.cons_append, samples_pulse, ih,
      List.replicate_succ, List.cons_append]

theorem samples_steps (ts : List String) (t : String) (rest : List gpio.LineWrite) :
    ∀ d, samples d (stepWrites ts ++ ⟨DAT, t⟩ :: rest)
      = ts.map gpio.level ++ samples (gpio.level t) rest := by
  induction ts with
  | nil =>
    intro d
    exact samples_data d t rest
  | cons t0 ts ih =>
    intro d
    rw [stepWrites_cons, List.cons_append, List.cons_append, List.cons_append, samples_data,
      samples_pulse, ih, List.map_cons, List.cons_append]

/-- The samples of a frame: 32 low, the levels of its data texts, 36 low. -/
theorem samples_frame (pixels : Fin 8 → Pixel) :
    samples .low (frameWrites pixels)
      = List.replicate 32 Level.low ++ (frameTexts pixels).map gpio.level
        ++ List.replicate 36 Level.low := by
  have hend : samples (gpio.level "0") (pulseWrites 36) = List.replicate 36 Level.low := by
    have h := samples_pulses (gpio.level "0") 36 []
    rw [List.append_nil] at h
    rw [h]
    rfl
  rw [frameWrites_steps, List.append_assoc, List.cons_append, samples_data, samples_pulses,
    samples_steps, hend, List.append_assoc]
  rfl

theorem decode_frame (pixels : Fin 8 → Pixel) :
    decode (frameWrites pixels) = groupBytes 32 ((frameTexts pixels).map gpio.level) := by
  have hlen : ((frameTexts pixels).map gpio.level).length = 256 := by
    rw [List.length_map, frameTexts_length]
  have h32 : (List.replicate 32 Level.low).length = 32 := List.length_replicate _ _
  have hpay : ((samples .low (frameWrites pixels)).drop 32).take
      ((samples .low (frameWrites pixels)).length - 32 - 36)
        = (frameTexts pixels).map gpio.level := by
    rw [samples_frame, List.append_assoc, List.drop_left' h32]
    simp only [List.length_append, List.length_replicate, hlen]
    exact List.take_left' hlen
  unfold decode
  rw [hpay]

theorem byteTexts_levels (val : Int) (h0 : 0 ≤ val) :
    (byteTexts val).map gpio.level = byteLevels val.toNat := by
  obtain ⟨v, rfl⟩ := Int.eq_ofNat_of_zero_le h0
  unfold byteTexts byteLevels
  rw [List.map_map]
  apply List.map_congr_left
  intro i hi
  simp only [Function.comp, Int.toNat_ofNat]
  exact signal_data_bit v i (List.mem_range.1 hi)

theorem bit_value (c : Prop) [Decidable c] :
    (if (if c then Level.high else Level.low) = Level.high then 1 else 0 : Nat)
      = if c then 1 else 0 := by
  by_cases h : c <;> simp [h]

theorem div_mod_two_ite (x : Nat) : (if x % 2 = 1 then 1 else 0 : Nat) = x % 2 := by
  rcases Nat.mod_two_eq_zero_or_one x with h | h <;> simp [h]

theorem bitsToNat_byteLevels (b : Nat) (hb : b < 256) : bitsToNat (byteLevels b) = b := by
  have hr : List.range 8 = [0, 1, 2, 3, 4, 5, 6, 7] := by decide
  unfold bitsToNat byteLevels
  rw [hr]
  simp only [List.map_cons, List.map_nil, List.foldl_cons, List.foldl_nil, bit_value,
    Nat.testBit_to_div_mod, decide_eq_true_eq, div_mod_two_ite]
  norm_num
  omega

theorem byteLevels_length (b : Nat) : (byteLevels b).length = 8 := by
  simp [byteLevels]

theorem groupBytes_bytes (bs : List Nat) (h : ∀ b ∈ bs, b < 256) :
    groupBytes bs.length (bs.flatMap byteLevels) = bs := by
  induction bs with
  | nil => rfl
  | cons b rest ih =>
    rw [List.flatMap_cons, List.length_cons, groupBytes, List.take_left' (byteLevels_length b),
      List.drop_left' (byteLevels_length b), bitsToNat_byteLevels b (h b (List.mem_cons_self _ _)),
      ih (fun x hx => h x (List.mem_cons_of_mem _ hx))]

end Spec

namespace Spec

theorem pixelTexts_levels (px : Pixel) (h : px.InRange) :
    (byteTexts (Int.lor PIXEL_START px.Brightness) ++ byteTexts px.B ++ byteTexts px.G
        ++ byteTexts px.R).map gpio.level
      = (pixelBytes px).flatMap byteLevels := by
  obtain ⟨⟨hr, _⟩, ⟨hg, _⟩, ⟨hb, _⟩, ⟨hbr, _⟩⟩ := h
  unfold pixelBytes
  simp only [List.map_append, List.flatMap_cons, List.flatMap_nil, List.append_nil]
  rw [byteTexts_levels _ hr, byteTexts_levels _ hg, byteTexts_levels _ hb,
    lor_pixel_start _ hbr, byteTexts_levels _ (Int.ofNat_nonneg _)]
  simp

theorem frameTexts_levels (pixels : Fin 8 → Pixel) (h : ∀ i, (pixels i).InRange) :
    (frameTexts pixels).map gpio.level
      = ((List.finRange 8).flatMap (fun i => pixelBytes (pixels i))).flatMap byteLevels := by
  unfold frameTexts
  rw [List.map_flatMap, List.flatMap_assoc]
  apply List.flatMap_congr
  intro i _
  exact pixelTexts_levels _ (h i)

/-- The bytes read back from a frame are the pixel bytes. -/
theorem decode_frame_bytes (pixels : Fin 8 → Pixel) (h : ∀ i, (pixels i).InRange) :
    decode (frameWrites pixels) = (List.finRange 8).flatMap (fun i => pixelBytes (pixels i)) := by
  have hlen : ((List.finRange 8).flatMap (fun i => pixelBytes (pixels i))).length = 32 := by
    rw [flatMap_length_const _ _ 4 (fun i => by simp [pixelBytes])]
    simp
  have hlt : ∀ b ∈ (List.finRange 8).flatMap (fun i => pixelBytes (pixels i)), b < 256 := by
    intro b hb
    rw [List.mem_flatMap] at hb
    obtain ⟨i, _, hbi⟩ := hb
    exact pixelBytes_lt _ (h i) b hbi
  have hg := groupBytes_bytes _ hlt
  rw [hlen] at hg
  rw [decode_frame, frameTexts_levels pixels h, hg]

theorem pixelBytes_injective (p q : Pixel) (hp : p.InRange) (hq : q.InRange)
    (h : pixelBytes p = pixelBytes q) : p = q := by
  obtain ⟨⟨hr, _⟩, ⟨hg, _⟩, ⟨hb, _⟩, ⟨hbr, hbr'⟩⟩ := hp
  obtain ⟨⟨hr2, _⟩, ⟨hg2, _⟩, ⟨hb2, _⟩, ⟨hbr2, hbr2'⟩⟩ := hq
  unfold pixelBytes at h
  simp only [List.cons.injEq, and_true] at h
  obtain ⟨h1, h2, h3, h4⟩ := h
  have e1 := (first_byte p.Brightness hbr hbr').2.2.2
  have e2 := (first_byte q.Brightness hbr2 hbr2').2.2.2
  rw [lor_pixel_start _ hbr] at e1
  rw [lor_pixel_start _ hbr2] at e2
  rw [h1] at e1
  have hbright : p.Brightness = q.Brightness := e1.symm.trans e2
  cases p
  cases q
  simp only [Pixel.mk.injEq]
  simp only at h2 h3 h4 hbright hr hg hb hr2 hg2 hb2
  refine ⟨by omega, by omega, by omega, hbright⟩

theorem flatMap_injective {ι α : Type} (xs : List ι) (f g : ι → List α)
    (hlen : ∀ i, (f i).length = (g i).length) (h : xs.flatMap f = xs.flatMap g) :
    ∀ i ∈ xs, f i = g i := by
  induction xs with
  | nil => intro i hi; cases hi
  | cons x rest ih =>
    rw [List.flatMap_cons, List.flatMap_cons] at h
    obtain ⟨h1, h2⟩ := List.append_inj h (hlen x)
    intro i hi
    rcases List.mem_cons.1 hi with rfl | hi
    · exact h1
    · exact ih h2 i hi

/-- Two in-range pixel arrays with the same frame are equal. -/
theorem frameWrites_injective (p q : Fin 8 → Pixel) (hp : ∀ i, (p i).InRange)
    (hq : ∀ i, (q i).InRange) (h : frameWrites p = frameWrites q) : p = q := by
  have hd : decode (frameWrites p) = decode (frameWrites q) := by rw [h]
  rw [decode_frame_bytes p hp, decode_frame_bytes q hq] at hd
  have hall := flatMap_injective (List.finRange 8) (fun i => pixelBytes (p i))
    (fun i => pixelBytes (q i)) (fun i => by simp [pixelBytes]) hd
  funext i
  exact pixelBytes_injective _ _ (hp i) (hq i) (hall i (List.mem_finRange i))

end Spec

/-! ## The release of the lines -/

namespace SysOp

theorem run_bind {α β : Type} (m : SysOp α) (f : α → SysOp β) (s : System) :
    (m >>= f) s = match m s with
      | ⟨.ok a, s1⟩ => f a s1
      | ⟨.error e, s1⟩ => ⟨.error e, s1⟩ := rfl

theorem run_bind_ok {α β : Type} {m : SysOp α} {f : α → SysOp β} {s s1 : System} {a : α}
    (h : m s = ⟨.ok a, s1⟩) : (m >>= f) s = f a s1 := by
  rw [run_bind, h]

theorem run_bind_error {α β : Type} {m : SysOp α} {f : α → SysOp β} {s s1 : System} {e : Fault}
    (h : m s = ⟨.error e, s1⟩) : (m >>= f) s = ⟨.error e, s1⟩ := by
  rw [run_bind, h]

end SysOp

namespace gpio

theorem cleanupLoop_cons (k : String) (v : gpioPin) (rest : List (String × gpioPin)) :
    cleanupLoop ((k, v) :: rest)
      = (closeDirection k >>= fun _ => closeValue k >>= fun _ => unexport k >>= fun _ =>
          cleanupLoop rest) := rfl

theorem map_fst_keep (es : List (String × gpioPin)) (g : String × gpioPin → String × gpioPin)
    (hg : ∀ e, (g e).1 = e.1) : (es.map g).map Prod.fst = es.map Prod.fst := by
  rw [List.map_map]
  apply List.map_congr_left
  intro e _
  exact hg e

theorem closedPin_world (k : String) (s : System) : (closedPin k s).world = s.world := rfl

theorem closedPin_exported (k : String) (s : System) :
    (closedPin k s).driver.exported = s.driver.exported := rfl

theorem closedPin_released (k : String) (s : System) :
    (closedPin k s).driver.released
      = s.driver.released ++ [.closeDirection k] ++ [.closeValue k] := rfl

theorem closedPin_pins (k : String) (s : System) :
    (closedPin k s).driver.pins = s.driver.pins := by
  show ((s.driver.gpioPins.map _).map _).map Prod.fst = s.driver.gpioPins.map Prod.fst
  rw [map_fst_keep _ _ (fun e => by split <;> rfl), map_fst_keep _ _ (fun e => by split <;> rfl)]

/-- One round of the loop of `Cleanup` on a pin the kernel has exported. -/
theorem round_ok (k : String) (s : System) (h : k ∈ s.driver.exported)
    (next : SysOp Unit) :
    (closeDirection k >>= fun _ => closeValue k >>= fun _ => unexport k >>= fun _ => next) s
      = next (unexported k s) := by
  have h1 : closeDirection k s = ⟨.ok (), (closeDirection k s).sys⟩ := rfl
  rw [SysOp.run_bind_ok h1]
  have h2 : closeValue k (closeDirection k s).sys = ⟨.ok (), closedPin k s⟩ := rfl
  rw [SysOp.run_bind_ok h2]
  have h3 : unexport k (closedPin k s) = ⟨.ok (), unexported k s⟩ := by
    unfold unexport
    have h' : k ∈ (closedPin k s).driver.exported := h
    rw [if_pos h']
    rfl
  rw [SysOp.run_bind_ok h3]

/-- One round of the loop of `Cleanup` on a pin the kernel has not exported:
the two files are closed, the unexport is attempted and ends in
`log.Panic`. -/
theorem round_panic (k : String) (s : System) (h : k ∉ s.driver.exported)
    (next : SysOp Unit) :
    (closeDirection k >>= fun _ => closeValue k >>= fun _ => unexport k >>= fun _ => next) s
      = ⟨.error .panic, rejected k s⟩ := by
  have h1 : closeDirection k s = ⟨.ok (), (closeDirection k s).sys⟩ := rfl
  rw [SysOp.run_bind_ok h1]
  have h2 : closeValue k (closeDirection k s).sys = ⟨.ok (), closedPin k s⟩ := rfl
  rw [SysOp.run_bind_ok h2]
  have h3 : unexport k (closedPin k s) = ⟨.error .panic, rejected k s⟩ := by
    unfold unexport
    have h' : k ∉ (closedPin k s).driver.exported := h
    rw [if_neg h']
    rfl
  rw [SysOp.run_bind_error h3]

end gpio

namespace gpio

theorem unexported_world (k : String) (s : System) : (unexported k s).world = s.world := rfl

theorem unexported_pins (k : String) (s : System) :
    (unexported k s).driver.pins = s.driver.pins := closedPin_pins k s

theorem rejected_pins (k : String) (s : System) :
    (rejected k s).driver.pins = s.driver.pins := closedPin_pins k s

/-- The loop of `Cleanup` leaves the strip alone and removes no entry from the
map, whether it returns or not. -/
theorem cleanupLoop_keeps (es : List (String × gpioPin)) :
    ∀ s : System, (cleanupLoop es s).sys.world = s.world
      ∧ (cleanupLoop es s).sys.driver.pins = s.driver.pins := by
  induction es with
  | nil => intro s; exact ⟨rfl, rfl⟩
  | cons e rest ih =>
    intro s
    obtain ⟨k, v⟩ := e
    rw [cleanupLoop_cons]
    by_cases hk : k ∈ s.driver.exported
    · rw [round_ok k s hk]
      obtain ⟨h1, h2⟩ := ih (unexported k s)
      exact ⟨h1.trans (unexported_world k s), h2.trans (unexported_pins k s)⟩
    · rw [round_panic k s hk]
      exact ⟨rfl, rejected_pins k s⟩

/-- The loop of `Cleanup` over entries with distinct pins that the kernel has
all exported: it returns, the pins are no longer exported, and each was
released by three calls. -/
theorem cleanupLoop_ok (es : List (String × gpioPin)) :
    ∀ s : System, (es.map Prod.fst).Nodup → (∀ e ∈ es, e.1 ∈ s.driver.exported) →
      (cleanupLoop es s).res = .ok ()
        ∧ (cleanupLoop es s).sys.driver.exported
            = s.driver.exported.filter (fun q => q ∉ es.map Prod.fst)
        ∧ (cleanupLoop es s).sys.driver.released = s.driver.released ++ releaseCalls es := by
  induction es with
  | nil =>
    intro s _ _
    refine ⟨rfl, ?_, ?_⟩
    · show s.driver.exported = _
      simp
    · show s.driver.released = _
      simp [releaseCalls]
  | cons e rest ih =>
    intro s hnd hex
    obtain ⟨k, v⟩ := e
    have hk : k ∈ s.driver.exported := hex (k, v) (List.mem_cons_self _ _)
    rw [List.map_cons, List.nodup_cons] at hnd
    obtain ⟨hknot, hnd'⟩ := hnd
    rw [cleanupLoop_cons, round_ok k s hk]
    have hex' : ∀ e ∈ rest, e.1 ∈ (unexported k s).driver.exported := by
      intro e he
      show e.1 ∈ s.driver.exported.filter (fun q => q ≠ k)
      rw [List.mem_filter]
      refine ⟨hex e (List.mem_cons_of_mem _ he), ?_⟩
      have : e.1 ≠ k := by
        intro h
        apply hknot
        show k ∈ rest.map Prod.fst
        rw [← h]
        exact List.mem_map_of_mem Prod.fst he
      simpa using this
    obtain ⟨h1, h2, h3⟩ := ih (unexported k s) hnd' hex'
    refine ⟨h1, ?_, ?_⟩
    · rw [h2]
      show (s.driver.exported.filter (fun q => q ≠ k)).filter _ = _
      rw [List.filter_filter]
      apply List.filter_congr
      intro q _
      by_cases h1 : q = k <;> by_cases h2 : q ∈ List.map Prod.fst rest <;> simp [h1, h2]
    · rw [h3]
      show (s.driver.released ++ [.closeDirection k] ++ [.closeValue k] ++ [.unexport k])
        ++ releaseCalls rest = _
      simp [releaseCalls]

/-- What `Cleanup` does on a Ready driver. -/
theorem Cleanup_ready (s : System) (h : s.driver.Ready) :
    (Cleanup s).res = .ok ()
      ∧ (Cleanup s).sys.world = s.world
      ∧ (Cleanup s).sys.driver.pins = s.driver.pins
      ∧ (Cleanup s).sys.driver.exported
          = s.driver.exported.filter (fun q => q ∉ s.driver.pins)
      ∧ (Cleanup s).sys.driver.released
          = s.driver.released ++ releaseCalls s.driver.gpioPins := by
  obtain ⟨hnd, _, _, hall⟩ := h
  have hk := cleanupLoop_keeps s.driver.gpioPins s
  have ho := cleanupLoop_ok s.driver.gpioPins s hnd (fun e he => (hall e he).1)
  exact ⟨ho.1, hk.1, hk.2, ho.2.1, ho.2.2⟩

/-- `Cleanup` on a driver whose first pin the kernel has not exported: the
release of that pin is attempted and ends in `log.Panic`. -/
theorem Cleanup_panic (s : System) (k : String) (rest : List String)
    (hpins : s.driver.pins = k :: rest) (hk : k ∉ s.driver.exported) :
    (Cleanup s).res = .error .panic
      ∧ (Cleanup s).sys.world = s.world
      ∧ (Cleanup s).sys.driver.released
          = s.driver.released ++ [.closeDirection k, .closeValue k, .unexport k] := by
  unfold Cleanup
  cases hes : s.driver.gpioPins with
  | nil =>
    unfold Driver.pins at hpins
    rw [hes] at hpins
    cases hpins
  | cons e es =>
    obtain ⟨k', v⟩ := e
    unfold Driver.pins at hpins
    rw [hes, List.map_cons] at hpins
    have hkk : k' = k := (List.cons.inj hpins).1
    subst hkk
    rw [cleanupLoop_cons, round_panic k' s hk]
    refine ⟨rfl, rfl, ?_⟩
    show s.driver.released ++ [.closeDirection k'] ++ [.closeValue k'] ++ [.unexport k'] = _
    simp

/-- A second `Cleanup` after the first one on a Ready driver. -/
theorem Cleanup_twice (s : System) (h : s.driver.Ready) :
    ∃ k, s.driver.pins.head? = some k
      ∧ (Cleanup (Cleanup s).sys).res = .error .panic
      ∧ (Cleanup (Cleanup s).sys).sys.world = s.world
      ∧ (Cleanup (Cleanup s).sys).sys.driver.released
          = (Cleanup s).sys.driver.released
            ++ [.closeDirection k, .closeValue k, .unexport k] := by
  obtain ⟨_, hw, hp, hexp, _⟩ := Cleanup_ready s h
  obtain ⟨_, hdat, _, _⟩ := h
  cases hpins : s.driver.pins with
  | nil => rw [hpins] at hdat; cases hdat
  | cons k rest =>
    have hk : k ∉ (Cleanup s).sys.driver.exported := by
      rw [hexp, List.mem_filter]
      intro hc
      have : k ∈ s.driver.pins := by rw [hpins]; exact List.mem_cons_self _ _
      simpa [this] using hc.2
    obtain ⟨h1, h2, h3⟩ := Cleanup_panic (Cleanup s).sys k rest (hp.trans hpins) hk
    exact ⟨k, rfl, h1, h2.trans hw, h3⟩

end gpio

/-! ## `Close` -/

/-- The strip after the `Clear` and the `Show` of `Close`. -/
theorem Clear_Show (w : World) :
    Show (Clear w).world
      = if clearedPixels w.bl.pixels = w.bl.previousPixels then
          ⟨.ok (), ⟨⟨clearedPixels w.bl.pixels, w.bl.previousPixels⟩, w.wire⟩⟩
        else ⟨.ok (), ⟨⟨clearedPixels w.bl.pixels, clearedPixels w.bl.pixels⟩,
          w.wire ++ frameWrites (clearedPixels w.bl.pixels)⟩⟩ := by
  rw [Clear_apply, Show_apply]
  rfl

/-- `Close` is `Cleanup` run on the strip that `Clear` and `Show` leave: the
frame, when there is one, is on the wire before the first release call. -/
theorem Close_apply (s : System) :
    Close s = gpio.Cleanup ⟨(Show (Clear s.world).world).world, s.driver⟩ := by
  have h1 : SysOp.onStrip Clear s = ⟨.ok (), ⟨(Clear s.world).world, s.driver⟩⟩ := by
    unfold SysOp.onStrip
    rw [Clear_apply]
  have h2 : SysOp.onStrip Show ⟨(Clear s.world).world, s.driver⟩
      = ⟨.ok (), ⟨(Show (Clear s.world).world).world, s.driver⟩⟩ := by
    unfold SysOp.onStrip
    rw [(Show_pixels (Clear s.world).world).1]
  unfold Close
  rw [SysOp.run_bind_ok h1, SysOp.run_bind_ok h2]

theorem clearedPixels_idem (pixels : Fin 8 → Pixel) :
    clearedPixels (clearedPixels pixels) = clearedPixels pixels := rfl

/-- The strip after `Close`: the cleared current array, equal to the previous
snapshot. -/
theorem Close_world (s : System) :
    (Close s).sys.world.bl.pixels = clearedPixels s.world.bl.pixels
      ∧ (Close s).sys.world.bl.previousPixels = clearedPixels s.world.bl.pixels
      ∧ (Close s).sys.world.wire
          = if clearedPixels s.world.bl.pixels = s.world.bl.previousPixels then s.world.wire
            else s.world.wire ++ frameWrites (clearedPixels s.world.bl.pixels) := by
  rw [Close_apply]
  unfold gpio.Cleanup
  rw [(gpio.cleanupLoop_keeps _ _).1, Clear_Show]
  by_cases h : clearedPixels s.world.bl.pixels = s.world.bl.previousPixels
  · rw [if_pos h, if_pos h]
    exact ⟨rfl, h.symm, rfl⟩
  · rw [if_neg h, if_neg h]
    exact ⟨rfl, rfl, rfl⟩

/-- A strip that `Close` has left is not changed by the `Clear` and the
`Show` of a second `Close`. -/
theorem Clear_Show_closed (w : World) (hp : w.bl.pixels = clearedPixels w.bl.pixels)
    (hq : w.bl.previousPixels = w.bl.pixels) : (Show (Clear w).world).world = w := by
  rw [Clear_Show, if_pos (hp.symm.trans hq.symm)]
  show (⟨⟨clearedPixels w.bl.pixels, w.bl.previousPixels⟩, w.wire⟩ : World) = w
  rw [← hp]

/-- A second `Close` is a second `Cleanup`. -/
theorem Close_Close (s : System) : Close (Close s).sys = gpio.Cleanup (Close s).sys := by
  obtain ⟨h1, h2, _⟩ := Close_world s
  have hw : (Show (Clear (Close s).sys.world).world).world = (Close s).sys.world := by
    apply Clear_Show_closed
    · rw [h1]; rfl
    · rw [h2, h1]
  rw [Close_apply (Close s).sys, hw]

theorem readyDriver_ready : readyDriver.Ready := by
  refine ⟨?_, ?_, ?_, ?_⟩
  · simp [readyDriver, gpio.Driver.pins, DAT, CLK]
  · simp [readyDriver, gpio.Driver.pins]
  · simp [readyDriver, gpio.Driver.pins]
  · simp [readyDriver]

theorem Close_ready (s : System) (h : s.driver.Ready) :
    (Close s).res = .ok ()
      ∧ (Close s).sys.driver.released = s.driver.released ++ gpio.releaseCalls s.driver.gpioPins := by
  have hc := gpio.Cleanup_ready ⟨(Show (Clear s.world).world).world, s.driver⟩ h
  rw [Close_apply]
  exact ⟨hc.1, hc.2.2.2.2⟩

theorem Close_twice (s : System) (h : s.driver.Ready) :
    ∃ k, s.driver.pins.head? = some k
      ∧ (Close (Close s).sys).res = .error .panic
      ∧ (Close (Close s).sys).sys.world.wire = (Close s).sys.world.wire
      ∧ (Close (Close s).sys).sys.driver.released
          = (Close s).sys.driver.released
            ++ [.closeDirection k, .closeValue k, .unexport k] := by
  obtain ⟨k, hk, h9, _, h11⟩ := gpio.Cleanup_twice
    ⟨(Show (Clear s.world).world).world, s.driver⟩ h
  refine ⟨k, hk, ?_, ?_, ?_⟩
  · rw [Close_Close, Close_apply]
    exact h9
  · rw [Close_Close]
    unfold gpio.Cleanup
    rw [(gpio.cleanupLoop_keeps _ _).1]
  · rw [Close_Close, Close_apply]
    exact h11

theorem Close_again_of_head (s : System) (hready : s.driver.Ready) (k : String) (ps : List String)
    (hk : s.driver.pins.head? = some k) (hp : s.driver.pins = ps) :
    (gpio.Cleanup.run s).res = .ok ()
      ∧ (gpio.Cleanup.run s).sys.driver.pins = ps
      ∧ (gpio.Cleanup.run (gpio.Cleanup.run s).sys).res = .error .panic
      ∧ (gpio.Cleanup.run (gpio.Cleanup.run s).sys).sys.driver.released
          = (gpio.Cleanup.run s).sys.driver.released
            ++ [.closeDirection k, .closeValue k, .unexport k]
      ∧ (Close.run s).res = .ok ()
      ∧ (Close.run (Close.run s).sys).res = .error .panic := by
  obtain ⟨h1, _, h3, _, _⟩ := gpio.Cleanup_ready s hready
  obtain ⟨k1, hk1, h5, _, h7⟩ := gpio.Cleanup_twice s hready
  obtain ⟨_, _, h9, _, _⟩ := Close_twice s hready
  have hkk : k1 = k := by
    rw [hk] at hk1
    exact (Option.some.inj hk1).symm
  subst hkk
  subst hp
  simp only [SysOp.run]
  exact ⟨h1, h3, h5, h7, (Close_ready s hready).1, h9⟩

/-! ## The brightness `1.0 / 31.0` -/

theorem thirtyFirst_valid : thirtyFirst.Valid := by decide

theorem thirtyFirst_inUnit : thirtyFirst.InUnit :=
  ⟨⟨_, _, _, rfl⟩, by norm_num [thirtyFirst, F64.toRat], by norm_num [thirtyFirst, F64.toRat]⟩

theorem thirtyFirst_exact : thirtyFirst.toRat * 31 = 1 - 2 ^ (-55 : Int) := by
  norm_num [thirtyFirst, F64.toRat]

theorem thirtyFirst_floor : ⌊thirtyFirst.toRat * 31⌋ = 0 := by
  rw [Int.floor_eq_iff]
  norm_num [thirtyFirst, F64.toRat]

theorem thirtyFirst_product :
    (F64.mul thirtyFirst (F64.ofNat 31)).toRat = 1 := by
  have h : F64.mul thirtyFirst (F64.ofNat 31) = F64.fin false (2 ^ 52) (-52) := by decide
  rw [h]
  norm_num [F64.toRat]

theorem thirtyFirst_convert : convertBrightnessToInt thirtyFirst = .ok 1 := by decide

/-- The brightness the two brightness setters store. -/
theorem brightness_stored (v : F64) (n : Int) (hn : convertBrightnessToInt v = .ok n)
    (w : World) (i : Fin 8) (p : Int) (hp : ((i : Nat) : Int) = p) :
    ((SetBrightness v).run w).res = .ok ()
      ∧ (((SetBrightness v).run w).world.bl.pixels i).Brightness = n
      ∧ ((SetPixelBrightness p v).run w).res = .ok ()
      ∧ (((SetPixelBrightness p v).run w).world.bl.pixels i).Brightness = n := by
  subst hp
  have hall : (SetBrightness v).run w = _ := SetBrightness_ok v n hn w
  have hone : (SetPixelBrightness ((i : Nat) : Int) v).run w = _ :=
    SetPixelBrightness_ok i v n hn w
  rw [hall, hone]
  refine ⟨rfl, rfl, rfl, ?_⟩
  simp only [Function.update_same]

/-! # The claims -/

/-- C1. For every strip whose current pixels differ from the previous snapshot
and whose fields are in range (`R`, `G`, `B` in `[0,255]`, `Brightness` in
`[0,31]`), `Show` returns normally and the line writes it performs are, read as
levels on the two lines, exactly the frame of the specification: data low and 32
clock pulses; for the pixels 0 to 7 the four bytes `0xE0 | Brightness`, `B`,
`G`, `R` (each below 256), every byte as 8 steps from bit 7 down to bit 0, the
data line driven high exactly when the bit is 1, then clock high, clock low;
data low and 36 clock pulses. When pixel 0 is `R=255, G=0, B=128,
Brightness=31` the first four data bytes are `0xFF, 0x80, 0x00, 0xFF`. -/
theorem Show_emits_frame (w : World)
    (hchanged : w.bl.pixels ≠ w.bl.previousPixels)
    (hrange : ∀ i, (w.bl.pixels i).InRange) :
    (Show.run w).res = .ok ()
      ∧ (Show.run w).world.wire = w.wire ++ frameWrites w.bl.pixels
      ∧ (frameWrites w.bl.pixels).map gpio.LineWrite.signal = Spec.frame w.bl.pixels
      ∧ (∀ i, ∀ b ∈ Spec.pixelBytes (w.bl.pixels i), b < 256)
      ∧ (w.bl.pixels 0 = ⟨255, 0, 128, 31⟩ →
          ∃ rest, (frameWrites w.bl.pixels).map gpio.LineWrite.signal
            = ((DAT, Level.low) :: Spec.pulses 32)
              ++ [0xFF, 0x80, 0x00, 0xFF].flatMap Spec.byteSteps ++ rest) := by
  have hshow : Show.run w
      = ⟨.ok (), ⟨⟨w.bl.pixels, w.bl.pixels⟩, w.wire ++ frameWrites w.bl.pixels⟩⟩ := by
    show Show w = _
    rw [Show_apply, if_neg hchanged]
  have hsig := frameWrites_signal w.bl.pixels hrange
  refine ⟨by rw [hshow], by rw [hshow], hsig, fun i => pixelBytes_lt _ (hrange i), ?_⟩
  intro h0
  rw [hsig]
  unfold Spec.frame
  have hfin : List.finRange 8 = (0 : Fin 8) :: (List.finRange 8).tail := by decide
  rw [hfin, List.flatMap_cons, h0]
  refine ⟨(List.finRange 8).tail.flatMap (fun i => (Spec.pixelBytes (w.bl.pixels i)).flatMap
    Spec.byteSteps) ++ (DAT, Level.low) :: Spec.pulses 36, ?_⟩
  have hbytes : Spec.pixelBytes ⟨255, 0, 128, 31⟩ = [0xFF, 0x80, 0x00, 0xFF] := by decide
  rw [hbytes]
  simp only [List.append_assoc, List.cons_append]

/-- Witness of C1: the example strip, never flushed, pixel 0 at `R=255, G=0,
B=128` and full brightness. -/
theorem Show_emits_frame_witness :
    (Show.run exampleWorld).res = .ok ()
      ∧ (Show.run exampleWorld).world.wire
          = exampleWorld.wire ++ frameWrites exampleWorld.bl.pixels
      ∧ (frameWrites exampleWorld.bl.pixels).map gpio.LineWrite.signal
          = Spec.frame exampleWorld.bl.pixels
      ∧ (∀ i, ∀ b ∈ Spec.pixelBytes (exampleWorld.bl.pixels i), b < 256)
      ∧ (exampleWorld.bl.pixels 0 = ⟨255, 0, 128, 31⟩ →
          ∃ rest, (frameWrites exampleWorld.bl.pixels).map gpio.LineWrite.signal
            = ((DAT, Level.low) :: Spec.pulses 32)
              ++ [0xFF, 0x80, 0x00, 0xFF].flatMap Spec.byteSteps ++ rest) :=
  Show_emits_frame exampleWorld (by decide) (by decide)

/-- C2. For every strip whose current pixel array equals its previous snapshot
in all 8 indices and all 4 fields, `Show` returns having performed no line
write and having left both arrays as they were. -/
theorem Show_unchanged_noop (w : World)
    (hsame : ∀ i, (w.bl.pixels i).R = (w.bl.previousPixels i).R
      ∧ (w.bl.pixels i).G = (w.bl.previousPixels i).G
      ∧ (w.bl.pixels i).B = (w.bl.previousPixels i).B
      ∧ (w.bl.pixels i).Brightness = (w.bl.previousPixels i).Brightness) :
    Show.run w = ⟨.ok (), w⟩ := by
  have heq : w.bl.pixels = w.bl.previousPixels := by
    funext i
    obtain ⟨h1, h2, h3, h4⟩ := hsame i
    cases hp : w.bl.pixels i
    cases hq : w.bl.previousPixels i
    simp_all
  show Show w = _
  rw [Show_apply, if_pos heq]

/-- Witness of C2: a strip whose two arrays hold the same pixels. -/
theorem Show_unchanged_noop_witness : Show.run flushedWorld = ⟨.ok (), flushedWorld⟩ :=
  Show_unchanged_noop flushedWorld (by decide)

/-- C3. For every strip, `Show` returns; after it the previous snapshot equals
the current array, and the current array is the one before the call; a second
`Show` run right after it performs no line write and changes nothing. -/
theorem Show_commits_then_silent (w : World) :
    (Show.run w).res = .ok ()
      ∧ (Show.run w).world.bl.previousPixels = (Show.run w).world.bl.pixels
      ∧ (Show.run w).world.bl.pixels = w.bl.pixels
      ∧ Show.run (Show.run w).world = ⟨.ok (), (Show.run w).world⟩ := by
  have hrun : Show.run w = Show w := rfl
  by_cases hsame : w.bl.pixels = w.bl.previousPixels
  · have h : Show.run w = ⟨.ok (), w⟩ := by rw [hrun, Show_apply, if_pos hsame]
    rw [h]
    exact ⟨rfl, hsame.symm, rfl, h⟩
  · have h : Show.run w
        = ⟨.ok (), ⟨⟨w.bl.pixels, w.bl.pixels⟩, w.wire ++ frameWrites w.bl.pixels⟩⟩ := by
      rw [hrun, Show_apply, if_neg hsame]
    rw [h]
    refine ⟨rfl, rfl, rfl, ?_⟩
    show Show _ = _
    rw [Show_apply, if_pos rfl]

/-- Counterexample to C4: the strip `NewBlinkt()` returns has eight current
pixels of brightness 15 and a previous snapshot of brightness 0, so the change
detection is true and the first `Show` writes a frame. -/
theorem NewBlinkt_default_is_changed :
    NewBlinkt [] = .ok ⟨uniformPixels 15, zeroPixels⟩
      ∧ uniformPixels 15 ≠ zeroPixels
      ∧ pixelsChanged ⟨uniformPixels 15, zeroPixels⟩ (List.finRange 8) = true
      ∧ (Show.run ⟨⟨uniformPixels 15, zeroPixels⟩, []⟩).world.wire
          = frameWrites (uniformPixels 15)
      ∧ frameWrites (uniformPixels 15) ≠ [] := by
  have hne : uniformPixels 15 ≠ zeroPixels := (uniformPixels_ne_zero 15).2 (by norm_num)
  exact ⟨NewBlinkt_nil, hne, (pixelsChanged_eq_true_iff _).2 hne,
    (congrArg (fun o => o.world.wire)
      (Show_of_changed ⟨⟨uniformPixels 15, zeroPixels⟩, []⟩ hne)).trans (List.nil_append _),
    frameWrites_ne_nil _⟩

/-- C4, as amended. A strip fresh from `NewBlinkt` has eight current pixels
`(0, 0, 0, b)` and an all-zero previous snapshot, with `b = 15` when no
brightness is given and `b` the converted brightness, between 0 and 31, when
a brightness in `[0.0, 1.0]` is given. The change detection is true exactly
when `b ≠ 0`: the first `Show` then writes one frame, and writes nothing
when `b = 0`. -/
theorem NewBlinkt_fresh (args : List F64)
    (hargs : ∀ v ∈ args.head?, v.Valid ∧ v.InUnit) :
    ∃ b : Int, NewBlinkt args = .ok ⟨uniformPixels b, zeroPixels⟩
      ∧ 0 ≤ b ∧ b ≤ 31
      ∧ (args = [] → b = 15)
      ∧ (∀ v ∈ args.head?, convertBrightnessToInt v = .ok b)
      ∧ (pixelsChanged ⟨uniformPixels b, zeroPixels⟩ (List.finRange 8) = true ↔ b ≠ 0)
      ∧ ∀ wire, Show.run ⟨⟨uniformPixels b, zeroPixels⟩, wire⟩
          = if b = 0 then ⟨.ok (), ⟨⟨uniformPixels b, zeroPixels⟩, wire⟩⟩
            else ⟨.ok (), ⟨⟨uniformPixels b, uniformPixels b⟩,
              wire ++ frameWrites (uniformPixels b)⟩⟩ := by
  have hshow : ∀ (b : Int) wire, Show.run ⟨⟨uniformPixels b, zeroPixels⟩, wire⟩
      = if b = 0 then ⟨.ok (), ⟨⟨uniformPixels b, zeroPixels⟩, wire⟩⟩
        else ⟨.ok (), ⟨⟨uniformPixels b, uniformPixels b⟩,
          wire ++ frameWrites (uniformPixels b)⟩⟩ := by
    intro b wire
    have h := Show_apply ⟨⟨uniformPixels b, zeroPixels⟩, wire⟩
    unfold Op.run
    rw [h]
    by_cases hb : b = 0
    · have hz : uniformPixels b = zeroPixels := by subst hb; rfl
      rw [if_pos hz, if_pos hb]
    · rw [if_neg ((uniformPixels_ne_zero b).2 hb), if_neg hb]
  have hchg : ∀ b : Int,
      pixelsChanged ⟨uniformPixels b, zeroPixels⟩ (List.finRange 8) = true ↔ b ≠ 0 := by
    intro b
    rw [pixelsChanged_eq_true_iff]
    exact uniformPixels_ne_zero b
  cases args with
  | nil =>
    exact ⟨15, NewBlinkt_nil, by norm_num, by norm_num, fun _ => rfl, by simp, hchg 15,
      hshow 15⟩
  | cons v rest =>
    obtain ⟨hv, hu⟩ := hargs v (by simp)
    obtain ⟨n, hn, _, h0, h31, _, _⟩ := convertBrightnessToInt_of_inUnit v hv hu
    refine ⟨n, NewBlinkt_cons_ok v rest n hn, h0, h31, (fun h => by cases h), ?_, hchg n, hshow n⟩
    intro v' hv'
    simp at hv'
    subst hv'
    exact hn

/-- Witness of C4 as amended: `NewBlinkt(1.0)`. -/
theorem NewBlinkt_fresh_witness :
    ∃ b : Int, NewBlinkt [F64.ofNat 1] = .ok ⟨uniformPixels b, zeroPixels⟩
      ∧ 0 ≤ b ∧ b ≤ 31
      ∧ ([F64.ofNat 1] = [] → b = 15)
      ∧ (∀ v ∈ [F64.ofNat 1].head?, convertBrightnessToInt v = .ok b)
      ∧ (pixelsChanged ⟨uniformPixels b, zeroPixels⟩ (List.finRange 8) = true ↔ b ≠ 0)
      ∧ ∀ wire, Show.run ⟨⟨uniformPixels b, zeroPixels⟩, wire⟩
          = if b = 0 then ⟨.ok (), ⟨⟨uniformPixels b, zeroPixels⟩, wire⟩⟩
            else ⟨.ok (), ⟨⟨uniformPixels b, uniformPixels b⟩,
              wire ++ frameWrites (uniformPixels b)⟩⟩ :=
  NewBlinkt_fresh [F64.ofNat 1] (by
    intro v hv
    simp at hv
    subst hv
    exact ⟨by decide, ⟨_, _, _, rfl⟩, by norm_num [F64.ofNat, F64.toRat],
      by norm_num [F64.ofNat, F64.toRat]⟩)

/-- Counterexample to C5: on the strip flushed at brightness 15 whose pixel 0
was then set to red 1, `SetPixel(0, 0, 0, 0)` alters the current array, and
after it the current array equals the previous snapshot again: the change
detection is false. The strip is the one `SetPixel(0, 1, 0, 0)` leaves after a
flush. -/
theorem SetPixel_revert_not_changed :
    (SetPixel 0 1 0 0).run flushedWorld = ⟨.ok (), revertWorld⟩
      ∧ ((SetPixel 0 0 0 0).run revertWorld).res = .ok ()
      ∧ ((SetPixel 0 0 0 0).run revertWorld).world.bl.pixels ≠ revertWorld.bl.pixels
      ∧ pixelsChanged ((SetPixel 0 0 0 0).run revertWorld).world.bl (List.finRange 8) = false := by
  decide

/-- C5, as amended. A setter call never modifies the previous snapshot, so
after it the change detection of `Show` is true exactly when the new current
array differs from that snapshot. In particular, on a strip whose current array
equals its previous snapshot (as after any `Show`), a setter call that alters
the current array leaves the change detection true. -/
theorem setter_changed_iff (c : Setter) (w : World) :
    (c.op.run w).world.bl.previousPixels = w.bl.previousPixels
      ∧ (pixelsChanged (c.op.run w).world.bl (List.finRange 8) = true
          ↔ (c.op.run w).world.bl.pixels ≠ w.bl.previousPixels)
      ∧ (w.bl.pixels = w.bl.previousPixels → (c.op.run w).world.bl.pixels ≠ w.bl.pixels →
          pixelsChanged (c.op.run w).world.bl (List.finRange 8) = true) := by
  have hprev : (c.op.run w).world.bl.previousPixels = w.bl.previousPixels :=
    (Setter.frame_preserved c w).1
  have hiff : pixelsChanged (c.op.run w).world.bl (List.finRange 8) = true
      ↔ (c.op.run w).world.bl.pixels ≠ w.bl.previousPixels := by
    rw [pixelsChanged_eq_true_iff, hprev]
  refine ⟨hprev, hiff, fun hflushed halters => hiff.2 ?_⟩
  rw [← hflushed]
  exact halters

/-- Witness of C5 as amended: `SetPixel(0, 1, 0, 0)` on a flushed strip. -/
theorem setter_changed_iff_witness :
    pixelsChanged ((Setter.SetPixel 0 1 0 0).op.run flushedWorld).world.bl (List.finRange 8)
      = true :=
  (setter_changed_iff (Setter.SetPixel 0 1 0 0) flushedWorld).2.2 (by decide) (by decide)

/-- Counterexample to C6: for the `float64` nearest to 1/31, which lies in
`[0.0, 1.0]`, the exact product with 31 is `1 - 2 ^ (-55)`, whose floor is 0;
the `float64` product rounds to 1 and `convertBrightnessToInt` returns 1. -/
theorem convertBrightnessToInt_not_floor :
    thirtyFirst.Valid ∧ thirtyFirst.InUnit
      ∧ thirtyFirst.toRat * 31 = 1 - 2 ^ (-55 : Int)
      ∧ ⌊thirtyFirst.toRat * 31⌋ = 0
      ∧ (F64.mul thirtyFirst (F64.ofNat 31)).toRat = 1
      ∧ convertBrightnessToInt thirtyFirst = .ok 1
      ∧ convertBrightnessToInt thirtyFirst ≠ .ok ⌊thirtyFirst.toRat * 31⌋ := by
  refine ⟨thirtyFirst_valid, thirtyFirst_inUnit, thirtyFirst_exact, thirtyFirst_floor,
    thirtyFirst_product, thirtyFirst_convert, ?_⟩
  rw [thirtyFirst_floor, thirtyFirst_convert]
  decide

/-- C6, as amended. For every brightness `v` with `0.0 <= v <= 1.0`,
`convertBrightnessToInt(v)` succeeds and returns the floor of the `float64`
product `v * 31.0` the code computes (the exact product rounded to the nearest
`float64`, ties to even); the result lies in `[0, 31]`, is 0 for `v = 0.0` and
31 for `v = 1.0`, and is the floor or the ceiling of the exact product. -/
theorem convertBrightnessToInt_floor (v : F64) (hv : v.Valid) (h : v.InUnit) :
    ∃ n : Int, convertBrightnessToInt v = .ok n
      ∧ n = ⌊(F64.mul v (F64.ofNat 31)).toRat⌋
      ∧ 0 ≤ n ∧ n ≤ 31
      ∧ (v.toRat = 0 → n = 0) ∧ (v.toRat = 1 → n = 31)
      ∧ ⌊v.toRat * 31⌋ ≤ n ∧ n ≤ ⌈v.toRat * 31⌉ := by
  obtain ⟨n, hn, hfl, h0, h31, hlo, hup⟩ := convertBrightnessToInt_of_inUnit v hv h
  refine ⟨n, hn, hfl, h0, h31, ?_, ?_, hlo, hup⟩
  · intro hz
    rw [hz] at hup
    simp at hup
    omega
  · intro hone
    rw [hone] at hlo
    have : ⌊((1 : ℚ) * 31)⌋ = 31 := by norm_num
    rw [this] at hlo
    omega

/-- Witness of C6: the brightness `0.5`. -/
theorem convertBrightnessToInt_floor_witness :
    ∃ n : Int, convertBrightnessToInt (F64.fin false 1 (-1)) = .ok n
      ∧ n = ⌊(F64.mul (F64.fin false 1 (-1)) (F64.ofNat 31)).toRat⌋
      ∧ 0 ≤ n ∧ n ≤ 31
      ∧ ((F64.fin false 1 (-1)).toRat = 0 → n = 0) ∧ ((F64.fin false 1 (-1)).toRat = 1 → n = 31)
      ∧ ⌊(F64.fin false 1 (-1)).toRat * 31⌋ ≤ n ∧ n ≤ ⌈(F64.fin false 1 (-1)).toRat * 31⌉ :=
  convertBrightnessToInt_floor (F64.fin false 1 (-1)) (by decide)
    ⟨⟨_, _, _, rfl⟩, by norm_num [F64.toRat], by norm_num [F64.toRat]⟩

/-- C7. For every brightness `v` outside `[0.0, 1.0]` (below 0, above 1, an
infinity or NaN) `convertBrightnessToInt` stops the program (`log.Fatalf`)
instead of returning a clamped value, and so do `SetBrightness(v)`,
`SetPixelBrightness(p, v)` and `NewBlinkt(v)`, the strip and the wire being
as before the call. For every `v` inside the range, the conversion returns,
`SetBrightness(v)` and `NewBlinkt(v)` return, and `SetPixelBrightness(p, v)`
does not stop fatally (it returns when `p` is an index of the array). -/
theorem brightness_out_of_range_fatal (v : F64) (w : World) (p : Int) (rest : List F64) :
    (¬ v.InUnit →
        convertBrightnessToInt v = .error .fatal
        ∧ (SetBrightness v).run w = ⟨.error .fatal, w⟩
        ∧ (SetPixelBrightness p v).run w = ⟨.error .fatal, w⟩
        ∧ NewBlinkt (v :: rest) = .error .fatal)
    ∧ (v.Valid → v.InUnit →
        (∃ n, convertBrightnessToInt v = .ok n)
        ∧ ((SetBrightness v).run w).res = .ok ()
        ∧ ((SetPixelBrightness p v).run w).res ≠ .error .fatal
        ∧ ((0 ≤ p ∧ p < 8) → ((SetPixelBrightness p v).run w).res = .ok ())
        ∧ ∃ bl, NewBlinkt (v :: rest) = .ok bl) := by
  constructor
  · intro hout
    have hc := convertBrightnessToInt_of_not_inUnit v hout
    exact ⟨hc, SetBrightness_error v _ hc w, SetPixelBrightness_error p v _ hc w,
      NewBlinkt_cons_error v rest _ hc⟩
  · intro hv hin
    obtain ⟨n, hn, _⟩ := convertBrightnessToInt_of_inUnit v hv hin
    have hsb : (SetBrightness v).run w = _ := SetBrightness_ok v n hn w
    refine ⟨⟨n, hn⟩, by rw [hsb], ?_, ?_, ⟨_, NewBlinkt_cons_ok v rest n hn⟩⟩
    · by_cases hp : 0 ≤ p ∧ p < 8
      · obtain ⟨i, rfl⟩ := exists_fin_of_inBounds p hp
        have : (SetPixelBrightness ((i : Nat) : Int) v).run w = _ :=
          SetPixelBrightness_ok i v n hn w
        rw [this]
        simp
      · have : (SetPixelBrightness p v).run w = _ := SetPixelBrightness_out p v n hn w hp
        rw [this]
        simp
    · intro hp
      obtain ⟨i, rfl⟩ := exists_fin_of_inBounds p hp
      have : (SetPixelBrightness ((i : Nat) : Int) v).run w = _ :=
        SetPixelBrightness_ok i v n hn w
      rw [this]

/-- Witness of C7: the brightness NaN on the flushed strip. -/
theorem brightness_out_of_range_fatal_witness :
    convertBrightnessToInt F64.nan = .error .fatal
      ∧ (SetBrightness F64.nan).run flushedWorld = ⟨.error .fatal, flushedWorld⟩
      ∧ (SetPixelBrightness 3 F64.nan).run flushedWorld = ⟨.error .fatal, flushedWorld⟩
      ∧ NewBlinkt (F64.nan :: []) = .error .fatal :=
  (brightness_out_of_range_fatal F64.nan flushedWorld 3 []).1
    (fun h => by obtain ⟨⟨_, _, _, hne⟩, _⟩ := h; cases hne)

/-- C8. For every strip, every index `p` in `[0, 7]` and all integers `r`,
`g`, `b`, `SetPixel(p, r, g, b)` returns with `R`, `G`, `B` of pixel `p` set to
`r`, `g`, `b` and nothing else changed: the brightness of pixel `p`, every
other pixel, the previous snapshot, and the wire (no line write). -/
theorem SetPixel_frame (w : World) (p r g b : Int) (hp : 0 ≤ p ∧ p < 8) :
    ∃ i : Fin 8, ((i : Nat) : Int) = p
      ∧ ((SetPixel p r g b).run w).res = .ok ()
      ∧ ((SetPixel p r g b).run w).world.bl.pixels i = ⟨r, g, b, (w.bl.pixels i).Brightness⟩
      ∧ (∀ j, j ≠ i → ((SetPixel p r g b).run w).world.bl.pixels j = w.bl.pixels j)
      ∧ ((SetPixel p r g b).run w).world.bl.previousPixels = w.bl.previousPixels
      ∧ ((SetPixel p r g b).run w).world.wire = w.wire := by
  obtain ⟨i, rfl⟩ := exists_fin_of_inBounds p hp
  have h : (SetPixel ((i : Nat) : Int) r g b).run w = _ := SetPixel_fin i r g b w
  rw [h]
  refine ⟨i, rfl, rfl, ?_, ?_, rfl, rfl⟩
  · simp
  · intro j hj
    simp [Function.update_noteq hj]

/-- Witness of C8: `SetPixel(3, 1, 2, 3)` on the flushed strip. -/
theorem SetPixel_frame_witness :
    ∃ i : Fin 8, ((i : Nat) : Int) = 3
      ∧ ((SetPixel 3 1 2 3).run flushedWorld).res = .ok ()
      ∧ ((SetPixel 3 1 2 3).run flushedWorld).world.bl.pixels i
          = ⟨1, 2, 3, (flushedWorld.bl.pixels i).Brightness⟩
      ∧ (∀ j, j ≠ i →
          ((SetPixel 3 1 2 3).run flushedWorld).world.bl.pixels j = flushedWorld.bl.pixels j)
      ∧ ((SetPixel 3 1 2 3).run flushedWorld).world.bl.previousPixels
          = flushedWorld.bl.previousPixels
      ∧ ((SetPixel 3 1 2 3).run flushedWorld).world.wire = flushedWorld.wire :=
  SetPixel_frame flushedWorld 3 1 2 3 (by decide)

/-- C9. For every strip, `SetAll(r, g, b)` returns with `(R, G, B) = (r, g, b)`
in all 8 pixels and every brightness as before; after `SetAll(10, 20, 30)`
followed by `SetPixel(3, 1, 2, 3)` every pixel other than pixel 3 has
`(R, G, B) = (10, 20, 30)`, pixel 3 has `(1, 2, 3)`, and the brightness of each
of the 8 pixels is the one before the two calls. -/
theorem SetAll_then_SetPixel (w : World) :
    (∀ r g b : Int, ((SetAll r g b).run w).res = .ok ()
      ∧ ∀ i, ((SetAll r g b).run w).world.bl.pixels i = ⟨r, g, b, (w.bl.pixels i).Brightness⟩)
    ∧ ((SetAll 10 20 30 >>= fun _ => SetPixel 3 1 2 3).run w).res = .ok ()
    ∧ (∀ i : Fin 8, i ≠ 3 →
        ((SetAll 10 20 30 >>= fun _ => SetPixel 3 1 2 3).run w).world.bl.pixels i
          = ⟨10, 20, 30, (w.bl.pixels i).Brightness⟩)
    ∧ ((SetAll 10 20 30 >>= fun _ => SetPixel 3 1 2 3).run w).world.bl.pixels 3
        = ⟨1, 2, 3, (w.bl.pixels 3).Brightness⟩ := by
  have hall : ∀ r g b : Int, (SetAll r g b).run w
      = ⟨.ok (), ⟨⟨fun i => ⟨r, g, b, (w.bl.pixels i).Brightness⟩,
        w.bl.previousPixels⟩, w.wire⟩⟩ := fun r g b => SetAll_apply r g b w
  have hseq : (SetAll 10 20 30 >>= fun _ => SetPixel 3 1 2 3).run w
      = ⟨.ok (), ⟨⟨Function.update (fun i => ⟨10, 20, 30, (w.bl.pixels i).Brightness⟩) 3
          ⟨1, 2, 3, (w.bl.pixels 3).Brightness⟩, w.bl.previousPixels⟩, w.wire⟩⟩ :=
    (Op.bind_of_ok (SetAll_apply 10 20 30 w)).trans (SetPixel_three 1 2 3 _)
  refine ⟨fun r g b => ?_, ?_, ?_, ?_⟩
  · rw [hall]
    exact ⟨rfl, fun i => rfl⟩
  · rw [hseq]
  · intro i hi
    rw [hseq]
    simp only [Function.update_noteq hi]
  · rw [hseq]
    simp only [Function.update_same]

/-- C10. For every strip, `Clear` returns with `R`, `G` and `B` of all 8
current pixels at 0 and every brightness as before, the previous snapshot
unchanged and no line write performed. -/
theorem Clear_frame (w : World) :
    (Clear.run w).res = .ok ()
      ∧ (∀ i, (Clear.run w).world.bl.pixels i = ⟨0, 0, 0, (w.bl.pixels i).Brightness⟩)
      ∧ (Clear.run w).world.bl.previousPixels = w.bl.previousPixels
      ∧ (Clear.run w).world.wire = w.wire := by
  have h : Clear.run w = _ := Clear_apply w
  rw [h]
  exact ⟨rfl, fun i => rfl, rfl, rfl⟩

/-- Counterexample to C11: for the `float64` nearest to 1/31, whose exact
product with 31 has floor 0, `SetBrightness` stores the brightness 1 in pixel
3 of the flushed strip, and so does `SetPixelBrightness(3, v)`. -/
theorem SetBrightness_not_floor :
    thirtyFirst.Valid ∧ thirtyFirst.InUnit
      ∧ ⌊thirtyFirst.toRat * 31⌋ = 0
      ∧ ((SetBrightness thirtyFirst).run flushedWorld).res = .ok ()
      ∧ (((SetBrightness thirtyFirst).run flushedWorld).world.bl.pixels 3).Brightness = 1
      ∧ ((SetPixelBrightness 3 thirtyFirst).run flushedWorld).res = .ok ()
      ∧ (((SetPixelBrightness 3 thirtyFirst).run flushedWorld).world.bl.pixels 3).Brightness = 1 :=
  ⟨thirtyFirst_valid, thirtyFirst_inUnit, thirtyFirst_floor,
    brightness_stored thirtyFirst 1 thirtyFirst_convert flushedWorld 3 3 rfl⟩

/-- C11, as amended. For every strip and every brightness `v` in
`[0.0, 1.0]`, `SetBrightness(v)` returns with the brightness of all 8 current
pixels set to the floor of the `float64` product `v * 31.0` the code computes
(the floor or the ceiling of the exact product) and every `R`, `G`, `B` as
before; `SetPixelBrightness(p, v)` with `p` in `[0, 7]` returns with that
brightness in pixel `p` only, every other field of every pixel as before;
neither modifies the previous snapshot nor writes a line. -/
theorem SetBrightness_frame (w : World) (v : F64) (p : Int) (hv : v.Valid) (h : v.InUnit)
    (hp : 0 ≤ p ∧ p < 8) :
    ∃ n : Int, convertBrightnessToInt v = .ok n
      ∧ n = ⌊(F64.mul v (F64.ofNat 31)).toRat⌋
      ∧ ⌊v.toRat * 31⌋ ≤ n ∧ n ≤ ⌈v.toRat * 31⌉
      ∧ ((SetBrightness v).run w).res = .ok ()
      ∧ (∀ i, ((SetBrightness v).run w).world.bl.pixels i
          = ⟨(w.bl.pixels i).R, (w.bl.pixels i).G, (w.bl.pixels i).B, n⟩)
      ∧ ((SetBrightness v).run w).world.bl.previousPixels = w.bl.previousPixels
      ∧ ((SetBrightness v).run w).world.wire = w.wire
      ∧ ∃ i : Fin 8, ((i : Nat) : Int) = p
        ∧ ((SetPixelBrightness p v).run w).res = .ok ()
        ∧ ((SetPixelBrightness p v).run w).world.bl.pixels i
            = ⟨(w.bl.pixels i).R, (w.bl.pixels i).G, (w.bl.pixels i).B, n⟩
        ∧ (∀ j, j ≠ i → ((SetPixelBrightness p v).run w).world.bl.pixels j = w.bl.pixels j)
        ∧ ((SetPixelBrightness p v).run w).world.bl.previousPixels = w.bl.previousPixels
        ∧ ((SetPixelBrightness p v).run w).world.wire = w.wire := by
  obtain ⟨n, hn, hfl, _, _, hlo, hup⟩ := convertBrightnessToInt_of_inUnit v hv h
  obtain ⟨i, rfl⟩ := exists_fin_of_inBounds p hp
  have hall : (SetBrightness v).run w
      = ⟨.ok (), ⟨⟨fun i => { w.bl.pixels i with Brightness := n }, w.bl.previousPixels⟩,
          w.wire⟩⟩ := SetBrightness_ok v n hn w
  have hone : (SetPixelBrightness ((i : Nat) : Int) v).run w
      = ⟨.ok (), ⟨⟨Function.update w.bl.pixels i { w.bl.pixels i with Brightness := n },
          w.bl.previousPixels⟩, w.wire⟩⟩ := SetPixelBrightness_ok i v n hn w
  rw [hall, hone]
  refine ⟨n, hn, hfl, hlo, hup, rfl, fun _ => rfl, rfl, rfl, i, rfl, rfl, ?_, ?_, rfl, rfl⟩
  · simp only [Function.update_same]
  · intro j hj
    simp only [Function.update_noteq hj]

/-- Witness of C11 as amended: brightness `0.5` and pixel 3 on the flushed
strip. -/
theorem SetBrightness_frame_witness :
    ∃ n : Int, convertBrightnessToInt (F64.fin false 1 (-1)) = .ok n
      ∧ n = ⌊(F64.mul (F64.fin false 1 (-1)) (F64.ofNat 31)).toRat⌋
      ∧ ⌊(F64.fin false 1 (-1)).toRat * 31⌋ ≤ n ∧ n ≤ ⌈(F64.fin false 1 (-1)).toRat * 31⌉
      ∧ ((SetBrightness (F64.fin false 1 (-1))).run flushedWorld).res = .ok ()
      ∧ (∀ i, ((SetBrightness (F64.fin false 1 (-1))).run flushedWorld).world.bl.pixels i
          = ⟨(flushedWorld.bl.pixels i).R, (flushedWorld.bl.pixels i).G,
              (flushedWorld.bl.pixels i).B, n⟩)
      ∧ ((SetBrightness (F64.fin false 1 (-1))).run flushedWorld).world.bl.previousPixels
          = flushedWorld.bl.previousPixels
      ∧ ((SetBrightness (F64.fin false 1 (-1))).run flushedWorld).world.wire = flushedWorld.wire
      ∧ ∃ i : Fin 8, ((i : Nat) : Int) = 3
        ∧ ((SetPixelBrightness 3 (F64.fin false 1 (-1))).run flushedWorld).res = .ok ()
        ∧ ((SetPixelBrightness 3 (F64.fin false 1 (-1))).run flushedWorld).world.bl.pixels i
            = ⟨(flushedWorld.bl.pixels i).R, (flushedWorld.bl.pixels i).G,
                (flushedWorld.bl.pixels i).B, n⟩
        ∧ (∀ j, j ≠ i → ((SetPixelBrightness 3 (F64.fin false 1 (-1))).run
            flushedWorld).world.bl.pixels j = flushedWorld.bl.pixels j)
        ∧ ((SetPixelBrightness 3 (F64.fin false 1 (-1))).run flushedWorld).world.bl.previousPixels
            = flushedWorld.bl.previousPixels
        ∧ ((SetPixelBrightness 3 (F64.fin false 1 (-1))).run flushedWorld).world.wire
            = flushedWorld.wire :=
  SetBrightness_frame flushedWorld (F64.fin false 1 (-1)) 3 (by decide)
    ⟨⟨_, _, _, rfl⟩, by norm_num [F64.toRat], by norm_num [F64.toRat]⟩ (by decide)

/-- Counterexample to C12: on a Ready strip whose current and previous
arrays are both black at brightness 15, `Close` returns and has released the
two lines without any line write: no frame is emitted. -/
theorem Close_without_frame :
    readySystem.driver.Ready
      ∧ (Close.run readySystem).res = .ok ()
      ∧ (Close.run readySystem).sys.world.wire = readySystem.world.wire
      ∧ readySystem.world.wire = []
      ∧ (Close.run readySystem).sys.driver.released
          = gpio.releaseCalls readySystem.driver.gpioPins := by
  have hready : readySystem.driver.Ready := readyDriver_ready
  have hsame : clearedPixels readySystem.world.bl.pixels = readySystem.world.bl.previousPixels := by
    decide
  have hw := (Close_world readySystem).2.2
  rw [if_pos hsame] at hw
  obtain ⟨h1, h2⟩ := Close_ready readySystem hready
  simp only [SysOp.run]
  exact ⟨hready, h1, hw, rfl, h2.trans (List.nil_append _)⟩

/-- C12, as amended. On every Ready strip `Close` returns. It runs `Clear`
and `Show` before it releases the lines: the release starts from the strip
these two leave, whose current array is the cleared one (every colour 0,
every brightness kept). When the cleared array differs from the previous
snapshot, the writes of `Close` are one complete frame of the cleared array,
in which the `B`, `G` and `R` bytes of every pixel word are 0; when the
cleared array equals the previous snapshot, `Close` writes nothing. -/
theorem Close_flush (s : System) (hready : s.driver.Ready) :
    (Close.run s).res = .ok ()
      ∧ Close.run s = gpio.Cleanup.run ⟨(Show.run (Clear.run s.world).world).world, s.driver⟩
      ∧ (Close.run s).sys.world.bl.pixels = clearedPixels s.world.bl.pixels
      ∧ (clearedPixels s.world.bl.pixels ≠ s.world.bl.previousPixels →
          (Close.run s).sys.world.wire
            = s.world.wire ++ frameWrites (clearedPixels s.world.bl.pixels))
      ∧ (clearedPixels s.world.bl.pixels = s.world.bl.previousPixels →
          (Close.run s).sys.world.wire = s.world.wire)
      ∧ (∀ i, pixelWrites (clearedPixels s.world.bl.pixels i)
          = byteWrites (Int.lor PIXEL_START (s.world.bl.pixels i).Brightness)
            ++ byteWrites 0 ++ byteWrites 0 ++ byteWrites 0)
      ∧ ((∀ i, 0 ≤ (s.world.bl.pixels i).Brightness ∧ (s.world.bl.pixels i).Brightness ≤ 31) →
          (frameWrites (clearedPixels s.world.bl.pixels)).map gpio.LineWrite.signal
              = Spec.frame (clearedPixels s.world.bl.pixels)
            ∧ ∀ i, Spec.pixelBytes (clearedPixels s.world.bl.pixels i)
              = [0xE0 ||| (s.world.bl.pixels i).Brightness.toNat, 0, 0, 0])
      ∧ (Close.run s).sys.driver.released
          = s.driver.released ++ gpio.releaseCalls s.driver.gpioPins := by
  obtain ⟨hp, _, hw⟩ := Close_world s
  obtain ⟨h1, h2⟩ := Close_ready s hready
  simp only [SysOp.run, Op.run]
  refine ⟨h1, Close_apply s, hp, ?_, ?_, fun _ => rfl, ?_, h2⟩
  · intro hne
    rw [if_neg hne] at hw
    exact hw
  · intro heq
    rw [if_pos heq] at hw
    exact hw
  · intro hbr
    refine ⟨frameWrites_signal _ (fun i => ?_), fun _ => rfl⟩
    have h255 : (0 : Int) ≤ 255 := by decide
    exact ⟨⟨le_refl _, h255⟩, ⟨le_refl _, h255⟩, ⟨le_refl _, h255⟩, hbr i⟩

/-- Witness of C12 as amended: the example strip on a Ready driver. -/
theorem Close_flush_witness :
    (Close.run exampleSystem).sys.world.wire
      = exampleSystem.world.wire ++ frameWrites (clearedPixels exampleSystem.world.bl.pixels) :=
  (Close_flush exampleSystem readyDriver_ready).2.2.2.1 (by decide)

/-- Counterexample to C13: on the Ready driver with the data and the clock
line, the first `Cleanup` returns and leaves both pins in the map; a second
`Cleanup` closes the files of the data line again, repeats its unexport and
ends in `log.Panic`; so does a second `Close`. -/
theorem Cleanup_second_panics :
    readySystem.driver.Ready
      ∧ (gpio.Cleanup.run readySystem).res = .ok ()
      ∧ (gpio.Cleanup.run readySystem).sys.driver.pins = [DAT, CLK]
      ∧ (gpio.Cleanup.run (gpio.Cleanup.run readySystem).sys).res = .error .panic
      ∧ (gpio.Cleanup.run (gpio.Cleanup.run readySystem).sys).sys.driver.released
          = (gpio.Cleanup.run readySystem).sys.driver.released
            ++ [.closeDirection DAT, .closeValue DAT, .unexport DAT]
      ∧ (Close.run readySystem).res = .ok ()
      ∧ (Close.run (Close.run readySystem).sys).res = .error .panic :=
  ⟨readyDriver_ready, Close_again_of_head readySystem readyDriver_ready DAT [DAT, CLK] rfl rfl⟩

/-- C13, as amended. `gpio.Cleanup` is not idempotent: it closes the two files
of every pin of the map and unexports it, and removes no entry from the map.
On a Ready driver the first `Cleanup` returns; a second `Cleanup` issued
after it closes again the two files of the first pin it visits and repeats
the unexport of that pin, which the kernel rejects, so that it ends in
`log.Panic`. Calling `Close` twice on a Ready strip therefore repeats the
unexport of a line and fails in the second call, which writes nothing to the
lines. -/
theorem Cleanup_not_idempotent (s : System) (hready : s.driver.Ready) :
    (gpio.Cleanup.run s).res = .ok ()
      ∧ (gpio.Cleanup.run s).sys.driver.pins = s.driver.pins
      ∧ (gpio.Cleanup.run s).sys.driver.released
          = s.driver.released ++ gpio.releaseCalls s.driver.gpioPins
      ∧ ∃ k, s.driver.pins.head? = some k
        ∧ (gpio.Cleanup.run (gpio.Cleanup.run s).sys).res = .error .panic
        ∧ (gpio.Cleanup.run (gpio.Cleanup.run s).sys).sys.driver.released
            = (gpio.Cleanup.run s).sys.driver.released
              ++ [.closeDirection k, .closeValue k, .unexport k]
        ∧ (Close.run s).res = .ok ()
        ∧ (Close.run (Close.run s).sys).res = .error .panic
        ∧ (Close.run (Close.run s).sys).sys.world.wire = (Close.run s).sys.world.wire
        ∧ (Close.run (Close.run s).sys).sys.driver.released
            = (Close.run s).sys.driver.released
              ++ [.closeDirection k, .closeValue k, .unexport k] := by
  obtain ⟨h1, _, h3, _, h4⟩ := gpio.Cleanup_ready s hready
  obtain ⟨k, hk, h5, _, h7⟩ := gpio.Cleanup_twice s hready
  obtain ⟨k2, hk2, h9, h10, h11⟩ := Close_twice s hready
  have hkk : k2 = k := by
    rw [hk] at hk2
    exact (Option.some.inj hk2).symm
  subst hkk
  simp only [SysOp.run]
  exact ⟨h1, h3, h4, k2, hk, h5, h7, (Close_ready s hready).1, h9, h10, h11⟩

/-- Witness of C13 as amended: the Ready driver with the two lines of the
strip. -/
theorem Cleanup_not_idempotent_witness :
    (gpio.Cleanup.run readySystem).res = .ok ()
      ∧ (gpio.Cleanup.run readySystem).sys.driver.pins = readySystem.driver.pins
      ∧ (gpio.Cleanup.run readySystem).sys.driver.released
          = readySystem.driver.released ++ gpio.releaseCalls readySystem.driver.gpioPins
      ∧ ∃ k, readySystem.driver.pins.head? = some k
        ∧ (gpio.Cleanup.run (gpio.Cleanup.run readySystem).sys).res = .error .panic
        ∧ (gpio.Cleanup.run (gpio.Cleanup.run readySystem).sys).sys.driver.released
            = (gpio.Cleanup.run readySystem).sys.driver.released
              ++ [.closeDirection k, .closeValue k, .unexport k]
        ∧ (Close.run readySystem).res = .ok ()
        ∧ (Close.run (Close.run readySystem).sys).res = .error .panic
        ∧ (Close.run (Close.run readySystem).sys).sys.world.wire
            = (Close.run readySystem).sys.world.wire
        ∧ (Close.run (Close.run readySystem).sys).sys.driver.released
            = (Close.run readySystem).sys.driver.released
              ++ [.closeDirection k, .closeValue k, .unexport k] :=
  Cleanup_not_idempotent readySystem readyDriver_ready

/-- Counterexample to C14: for the byte 255 the value `writeByte` passes to
`gpio.DigitalWrite` in its first step is 128, and the text written to the data
line is `128`, neither `0` nor `1`. -/
theorem writeByte_writes_128 :
    Int.land 255 128 = 128
      ∧ gpio.Itoa (Int.land 255 128) = "128"
      ∧ ((writeByte 255).run flushedWorld).world.wire = flushedWorld.wire ++ byteWrites 255
      ∧ (byteWrites 255).head? = some ⟨DAT, "128"⟩
      ∧ ("128" : String) ≠ "0" ∧ ("128" : String) ≠ "1" := by
  refine ⟨by decide, by decide, ?_, by decide, by decide, by decide⟩
  exact congrArg (fun o => o.world.wire) (writeByte_apply 255 flushedWorld)

/-- C14, as amended. Every value `writeByte` passes to `gpio.DigitalWrite`
for the data line is `val & 128`, which is 0 or 128 (128 for a 1 bit), so
the text written to the data line is `0` or `128`; the texts written to the
clock line are `1` and `0`. The same holds for every write of a frame of
`Show`. -/
theorem writeByte_texts (val : Int) (w : World) (pixels : Fin 8 → Pixel) :
    (Int.land val 128 = 0 ∨ Int.land val 128 = 128)
      ∧ ((writeByte val).run w).world.wire = w.wire ++ byteWrites val
      ∧ (∀ x ∈ byteWrites val, WireText x)
      ∧ (∀ x ∈ frameWrites pixels, WireText x) :=
  ⟨land_128_cases val, congrArg (fun o => o.world.wire) (writeByte_apply val w),
    byteWrites_wireText val, frameWrites_wireText pixels⟩

/-- Counterexample to C15: for the `float64` nearest to 1/31, whose exact
product with 31 has floor 0, `NewBlinkt(v)` returns a strip whose pixels have
the brightness 1. -/
theorem NewBlinkt_not_floor :
    thirtyFirst.Valid ∧ thirtyFirst.InUnit
      ∧ ⌊thirtyFirst.toRat * 31⌋ = 0
      ∧ NewBlinkt [thirtyFirst] = .ok ⟨uniformPixels 1, zeroPixels⟩
      ∧ uniformPixels 1 = fun _ => ⟨0, 0, 0, 1⟩ :=
  ⟨thirtyFirst_valid, thirtyFirst_inUnit, thirtyFirst_floor,
    NewBlinkt_cons_ok thirtyFirst [] 1 thirtyFirst_convert, rfl⟩

/-- C15, as amended. `NewBlinkt()` returns a strip whose 8 current pixels
are all `(0, 0, 0)` with brightness 15; `NewBlinkt(v)` for `v` in `[0.0, 1.0]`
returns a strip whose 8 current pixels are all `(0, 0, 0)` with the brightness
the floor of the `float64` product `v * 31.0` the code computes (the floor or
the ceiling of the exact product); the brightness is the same in the 8
pixels. -/
theorem NewBlinkt_pixels :
    (∃ bl, NewBlinkt [] = .ok bl ∧ ∀ i, bl.pixels i = ⟨0, 0, 0, 15⟩)
      ∧ ∀ (v : F64) (rest : List F64), v.Valid → v.InUnit →
          ∃ (bl : Blinkt) (n : Int), NewBlinkt (v :: rest) = .ok bl
            ∧ n = ⌊(F64.mul v (F64.ofNat 31)).toRat⌋
            ∧ ⌊v.toRat * 31⌋ ≤ n ∧ n ≤ ⌈v.toRat * 31⌉
            ∧ ∀ i, bl.pixels i = ⟨0, 0, 0, n⟩ := by
  refine ⟨⟨_, NewBlinkt_nil, fun _ => rfl⟩, ?_⟩
  intro v rest hv h
  obtain ⟨n, hn, hfl, _, _, hlo, hup⟩ := convertBrightnessToInt_of_inUnit v hv h
  exact ⟨_, n, NewBlinkt_cons_ok v rest n hn, hfl, hlo, hup, fun _ => rfl⟩

/-- Witness of C15 as amended: `NewBlinkt(1.0)`. -/
theorem NewBlinkt_pixels_witness :
    ∃ (bl : Blinkt) (n : Int), NewBlinkt [F64.ofNat 1] = .ok bl
      ∧ n = ⌊(F64.mul (F64.ofNat 1) (F64.ofNat 31)).toRat⌋
      ∧ ⌊(F64.ofNat 1).toRat * 31⌋ ≤ n ∧ n ≤ ⌈(F64.ofNat 1).toRat * 31⌉
      ∧ ∀ i, bl.pixels i = ⟨0, 0, 0, n⟩ :=
  NewBlinkt_pixels.2 (F64.ofNat 1) [] (by decide)
    ⟨⟨_, _, _, rfl⟩, by norm_num [F64.ofNat, F64.toRat], by norm_num [F64.ofNat, F64.toRat]⟩

/-- C16. The previous snapshot is overwritten only by a flush: no setter call
modifies it; a `Show` that writes nothing leaves it as it was; a `Show` that
writes writes one frame of the current array and leaves the previous snapshot
equal to that array; and a setter call after such a `Show` changes the
current array only, the snapshot still being the array that was encoded. -/
theorem previous_only_by_flush (w : World) (c : Setter) :
    (c.op.run w).world.bl.previousPixels = w.bl.previousPixels
      ∧ ((Show.run w).world.wire = w.wire →
          (Show.run w).world.bl.previousPixels = w.bl.previousPixels)
      ∧ ((Show.run w).world.wire ≠ w.wire →
          (Show.run w).world.wire = w.wire ++ frameWrites w.bl.pixels
            ∧ (Show.run w).world.bl.previousPixels = w.bl.pixels
            ∧ (c.op.run (Show.run w).world).world.bl.previousPixels = w.bl.pixels) := by
  refine ⟨(Setter.frame_preserved c w).1, ?_, ?_⟩
  · intro hw
    by_cases hsame : w.bl.pixels = w.bl.previousPixels
    · have h : Show.run w = ⟨.ok (), w⟩ := by
        show Show w = _
        rw [Show_apply, if_pos hsame]
      rw [h]
    · exfalso
      rw [Show_of_changed w hsame] at hw
      have : frameWrites w.bl.pixels = [] := by simpa using hw
      exact frameWrites_ne_nil _ this
  · intro hw
    by_cases hsame : w.bl.pixels = w.bl.previousPixels
    · exfalso
      have h : Show.run w = ⟨.ok (), w⟩ := by
        show Show w = _
        rw [Show_apply, if_pos hsame]
      rw [h] at hw
      exact hw rfl
    · have hprev := (Setter.frame_preserved c (Show.run w).world).1
      rw [Show_of_changed w hsame] at hprev ⊢
      exact ⟨rfl, rfl, hprev⟩

/-- Witness of C16: `SetPixel(0, 1, 0, 0)` after the first `Show` of the
example strip. -/
theorem previous_only_by_flush_witness :
    (Show.run exampleWorld).world.wire = exampleWorld.wire ++ frameWrites exampleWorld.bl.pixels
      ∧ (Show.run exampleWorld).world.bl.previousPixels = exampleWorld.bl.pixels
      ∧ ((Setter.SetPixel 0 1 0 0).op.run (Show.run exampleWorld).world).world.bl.previousPixels
          = exampleWorld.bl.pixels :=
  (previous_only_by_flush exampleWorld (Setter.SetPixel 0 1 0 0)).2.2 (by
    rw [Show_of_changed exampleWorld (by decide)]
    intro h
    have : frameWrites exampleWorld.bl.pixels = [] := by simpa using h
    exact frameWrites_ne_nil _ this)

/-- C17. `writeByte` truncates on write: for every integer `val`, negative or
above 255, the line writes of `writeByte(val)` are those of
`writeByte(val mod 256)`; step `i` writes bit `7 - i` of `val` (in two's
complement) to the data line and pulses the clock, so no bit above bit 7
reaches the wire. -/
theorem writeByte_truncates (val : Int) (w : World) :
    (writeByte val).run w = (writeByte (val % 256)).run w
      ∧ ((writeByte val).run w).res = .ok ()
      ∧ ((writeByte val).run w).world.wire = w.wire ++ (List.range 8).flatMap (fun i =>
          [⟨DAT, gpio.Itoa (128 * (val / 2 ^ (7 - i) % 2))⟩, ⟨CLK, "1"⟩, ⟨CLK, "0"⟩])
      ∧ ((writeByte val).run w).world.bl = w.bl := by
  have h1 := writeByte_apply val w
  have h2 := writeByte_apply (val % 256) w
  rw [byteWrites_emod] at h2
  refine ⟨h1.trans h2.symm, by rw [h1], ?_, by rw [h1]⟩
  rw [h1, ← byteWrites_bits]

/-- C18. In every strip reached from `NewBlinkt()` or `NewBlinkt(v)` by a
finite sequence of calls of `SetPixel`, `SetAll`, `Clear`, `SetBrightness`,
`SetPixelBrightness` and `Show` that all return, the brightness of each of the
8 current pixels lies in `[0, 31]`; hence the first byte of its pixel word,
`PIXEL_START | Brightness`, lies in `[224, 255]`, has its three high bits set
and its low five bits equal to the brightness. -/
theorem brightness_invariant (args : List F64) (cs : List Call) (bl : Blinkt)
    (wire : List gpio.LineWrite) (w1 : World)
    (hargs : ∀ v ∈ args, v.Valid) (hcs : ∀ c ∈ cs, c.ArgsValid)
    (hnew : NewBlinkt args = .ok bl)
    (hrun : (runCalls cs).run ⟨bl, wire⟩ = ⟨.ok (), w1⟩) :
    ∀ i, (0 ≤ (w1.bl.pixels i).Brightness ∧ (w1.bl.pixels i).Brightness ≤ 31)
      ∧ 224 ≤ Int.lor PIXEL_START (w1.bl.pixels i).Brightness
      ∧ Int.lor PIXEL_START (w1.bl.pixels i).Brightness ≤ 255
      ∧ Int.lor PIXEL_START (w1.bl.pixels i).Brightness / 32 = 7
      ∧ Int.lor PIXEL_START (w1.bl.pixels i).Brightness % 32 = (w1.bl.pixels i).Brightness := by
  have hok : BrightnessOk w1.bl :=
    runCalls_brightnessOk cs hcs ⟨bl, wire⟩ w1 (NewBlinkt_brightnessOk args hargs bl hnew) hrun
  intro i
  exact ⟨hok i, first_byte _ (hok i).1 (hok i).2⟩

/-- Witness of C18: `NewBlinkt()`, then `SetPixel(0, 1, 0, 0)` and `Show`, at
pixel 0. -/
theorem brightness_invariant_witness :
    (0 ≤ (revertWorld.bl.pixels 0).Brightness ∧ (revertWorld.bl.pixels 0).Brightness ≤ 31)
      ∧ 224 ≤ Int.lor PIXEL_START (revertWorld.bl.pixels 0).Brightness
      ∧ Int.lor PIXEL_START (revertWorld.bl.pixels 0).Brightness ≤ 255
      ∧ Int.lor PIXEL_START (revertWorld.bl.pixels 0).Brightness / 32 = 7
      ∧ Int.lor PIXEL_START (revertWorld.bl.pixels 0).Brightness % 32
          = (revertWorld.bl.pixels 0).Brightness :=
  brightness_invariant [] [.setter (.SetPixel 0 1 0 0), .Show]
    ⟨uniformPixels 15, zeroPixels⟩ []
    ⟨⟨revertWorld.bl.pixels, revertWorld.bl.pixels⟩, [] ++ frameWrites revertWorld.bl.pixels⟩
    (by simp)
    (by
      intro c hc
      simp only [List.mem_cons, List.mem_singleton, List.not_mem_nil, or_false] at hc
      rcases hc with rfl | rfl <;> exact trivial)
    NewBlinkt_nil
    (by
      have h2 : (Setter.SetPixel 0 1 0 0).op ⟨⟨uniformPixels 15, zeroPixels⟩, []⟩
          = ⟨.ok (), ⟨⟨revertWorld.bl.pixels, zeroPixels⟩, []⟩⟩ := by decide
      have h3 := Show_of_changed ⟨⟨revertWorld.bl.pixels, zeroPixels⟩, []⟩ (by decide)
      have e : (runCalls [.setter (.SetPixel 0 1 0 0), .Show]).run
            ⟨⟨uniformPixels 15, zeroPixels⟩, []⟩
          = ((Setter.SetPixel 0 1 0 0).op >>= fun _ =>
              (Show >>= fun _ => (pure () : Op Unit))) ⟨⟨uniformPixels 15, zeroPixels⟩, []⟩ :=
        rfl
      rw [e, Op.bind_of_ok h2, Op.bind_of_ok h3]
      rfl)
    0

/-- C19. In the line writes of a `Show` that emits a frame, the writes to the
clock line alternate high, low, high, low, beginning with high and ending
with low, exactly 32 + 256 + 36 = 324 of them are high, and every write to
the data line happens while the clock is low (the clock write before it, if
there is one, is low). -/
theorem Show_clocking (w : World) (hchanged : w.bl.pixels ≠ w.bl.previousPixels) :
    (Show.run w).world.wire = w.wire ++ frameWrites w.bl.pixels
      ∧ Spec.clockLevels (frameWrites w.bl.pixels)
          = (List.replicate 324 [Level.high, Level.low]).flatten
      ∧ (Spec.clockLevels (frameWrites w.bl.pixels)).count Level.high = 32 + 256 + 36
      ∧ Spec.dataWhileClockLow .low (frameWrites w.bl.pixels) = true := by
  obtain ⟨hclk, hdat⟩ := Spec.frame_clock w.bl.pixels
  refine ⟨by rw [Show_of_changed w hchanged], hclk, ?_, hdat⟩
  rw [hclk]
  exact Spec.count_high_pulses 324

/-- Witness of C19: the first `Show` of the example strip. -/
theorem Show_clocking_witness :
    (Show.run exampleWorld).world.wire = exampleWorld.wire ++ frameWrites exampleWorld.bl.pixels
      ∧ Spec.clockLevels (frameWrites exampleWorld.bl.pixels)
          = (List.replicate 324 [Level.high, Level.low]).flatten
      ∧ (Spec.clockLevels (frameWrites exampleWorld.bl.pixels)).count Level.high = 32 + 256 + 36
      ∧ Spec.dataWhileClockLow .low (frameWrites exampleWorld.bl.pixels) = true :=
  Show_clocking exampleWorld (by decide)

/-- C20. The frame encoding is lossless on in-range pixels: for a strip with
`R`, `G`, `B` in `[0, 255]` and brightness in `[0, 31]` whose `Show` emits a
frame, the data line sampled at each clock-high write gives 324 samples, and
the samples without the first 32 and the last 36, grouped most significant
bit first into 32 bytes, are for the pixels 0 to 7 in order the bytes `0xE0 |
Brightness`, `B`, `G`, `R`; so two such strips whose `Show` emits the same
writes have equal current arrays. -/
theorem frame_lossless (w1 w2 : World)
    (hc1 : w1.bl.pixels ≠ w1.bl.previousPixels) (hr1 : ∀ i, (w1.bl.pixels i).InRange)
    (hc2 : w2.bl.pixels ≠ w2.bl.previousPixels) (hr2 : ∀ i, (w2.bl.pixels i).InRange) :
    (Show.run w1).world.wire = w1.wire ++ frameWrites w1.bl.pixels
      ∧ (Spec.samples .low (frameWrites w1.bl.pixels)).length = 324
      ∧ Spec.decode (frameWrites w1.bl.pixels)
          = (List.finRange 8).flatMap (fun i =>
              [0xE0 ||| (w1.bl.pixels i).Brightness.toNat, (w1.bl.pixels i).B.toNat,
                (w1.bl.pixels i).G.toNat, (w1.bl.pixels i).R.toNat])
      ∧ (Show.run w2).world.wire = w2.wire ++ frameWrites w2.bl.pixels
      ∧ (frameWrites w1.bl.pixels = frameWrites w2.bl.pixels → w1.bl.pixels = w2.bl.pixels) := by
  refine ⟨by rw [Show_of_changed w1 hc1], ?_, Spec.decode_frame_bytes _ hr1,
    by rw [Show_of_changed w2 hc2], Spec.frameWrites_injective _ _ hr1 hr2⟩
  rw [Spec.samples_frame]
  simp [frameTexts_length]

/-- Witness of C20: the example strip and the strip whose pixel 0 is red 1;
the decoded bytes of the first. -/
theorem frame_lossless_witness :
    (Spec.samples .low (frameWrites exampleWorld.bl.pixels)).length = 324
      ∧ Spec.decode (frameWrites exampleWorld.bl.pixels)
          = (List.finRange 8).flatMap (fun i =>
              [0xE0 ||| (exampleWorld.bl.pixels i).Brightness.toNat,
                (exampleWorld.bl.pixels i).B.toNat,
                (exampleWorld.bl.pixels i).G.toNat, (exampleWorld.bl.pixels i).R.toNat]) :=
  (fun h => ⟨h.2.1, h.2.2.1⟩)
    (frame_lossless exampleWorld ⟨⟨revertWorld.bl.pixels, zeroPixels⟩, []⟩
      (by decide) (by decide) (by decide) (by decide))

end sysfs
